import Mathlib

/-!
Formal model of the friend-network messaging system (core_communication.py)
and of the RSA messaging module (rsa_encryption.py), with theorems about
routing, delivery, the friendship-symmetry invariant and the RSA round trip.

Conventions of the embedding:
* Python `str` is Lean `String`; `ord` is `Char.toNat`.
* The Python dict `person_id -> Person` is an association list
  `List (String × Person)`; `in` is `(pLookup ...).isSome`, lookup is first
  match, insertion appends at the end (Python dicts preserve insertion order).
* A Python `set` of friend ids is a duplicate-free `List String` built by
  insert-if-absent (`Person.add_friend`); iterating the set iterates the list.
* Raising an exception is `Except.error`; a caller that lets the exception
  propagate leaves the state unchanged, which is modelled by returning the
  old state.
* The BFS while-loop of `find_path` is modelled with explicit fuel;
  `find_path` supplies fuel that provably never runs out (each iteration
  consumes one queue entry and at most `1 + Σ |connections|` entries are ever
  enqueued, since a node is expanded only the first time it is dequeued).
-/

/-- Values stored in the free-form `metadata` dict of a message: the RSA
module stores a mix of strings and integers. -/
inductive MetaVal where
  | str (s : String)
  | num (n : Nat)
deriving DecidableEq

/-- Python dict used for `Message.metadata`, in insertion order. -/
abbrev Metadata := List (String × MetaVal)

/-- `Message` from core_communication.py: sender, receiver, body, type tag,
metadata and the route stamped by the network during delivery (initially
`[]`, i.e. the constructor's `self.route = []`). -/
structure Message where
  sender_id : String
  receiver_id : String
  message_body : String
  message_type : String
  metadata : Metadata
  route : List String
deriving DecidableEq

/-- `Person` from core_communication.py. -/
structure Person where
  person_id : String
  name : String
  connections : List String
  messages : List Message
deriving DecidableEq

/-- `Person.add_friend`: `self.connections.add(friend_id)` (set insert). -/
def Person.add_friend (p : Person) (friend_id : String) : Person :=
  if friend_id ∈ p.connections then p
  else { p with connections := p.connections ++ [friend_id] }

/-- `Person.add_message`: `self.messages.append(message)`. -/
def Person.add_message (p : Person) (m : Message) : Person :=
  { p with messages := p.messages ++ [m] }

/-- `CommunicationNetwork`: `self.people = {}`, a `person_id -> Person` dict. -/
structure CommunicationNetwork where
  people : List (String × Person)
deriving DecidableEq

/-- First-match lookup in the `person_id -> Person` dict. -/
def pLookup : List (String × Person) → String → Option Person
  | [], _ => none
  | e :: rest, i => if e.1 = i then some e.2 else pLookup rest i

/-- In-place mutation of the person object stored under `i`
(`self.people[i].method(...)` in Python). -/
def updatePerson (people : List (String × Person)) (i : String)
    (f : Person → Person) : List (String × Person) :=
  people.map (fun e => if e.1 = i then (e.1, f e.2) else e)

/-- `CommunicationNetwork.add_person`: raises `ValueError` on a duplicate id,
otherwise stores and returns a fresh `Person`. -/
def CommunicationNetwork.add_person (net : CommunicationNetwork)
    (person_id name : String) : Except String (CommunicationNetwork × Person) :=
  if (pLookup net.people person_id).isSome then
    Except.error ("Person with ID '" ++ person_id ++ "' already exists")
  else
    let person : Person := ⟨person_id, name, [], []⟩
    Except.ok (⟨net.people ++ [(person_id, person)]⟩, person)

/-- `CommunicationNetwork.add_friendship`: raises `ValueError` unless both ids
exist, then adds each person to the other's connection set (in the source's
order: first `person1_id` gains `person2_id`, then `person2_id` gains
`person1_id`). -/
def CommunicationNetwork.add_friendship (net : CommunicationNetwork)
    (person1_id person2_id : String) : Except String CommunicationNetwork :=
  if (pLookup net.people person1_id).isSome ∧ (pLookup net.people person2_id).isSome then
    Except.ok ⟨updatePerson
      (updatePerson net.people person1_id (fun p => p.add_friend person2_id))
      person2_id (fun p => p.add_friend person1_id)⟩
  else
    Except.error "Both people must exist in the network before creating friendship"

/-- The friend ids the BFS iterates from `c`: `self.people[c].connections`
when `c in self.people`, nothing otherwise (the `if current_id in
self.people` guard of `find_path`). -/
def nbrs (net : CommunicationNetwork) (c : String) : List String :=
  match pLookup net.people c with
  | some p => p.connections
  | none => []

/-- The while-loop of `CommunicationNetwork.find_path`, with explicit fuel.
Queue entries are `(current_id, path)` pairs; `visited` is the visited set.
Mirrors the source exactly: skip an already-visited head, return the recorded
path the first time the receiver is dequeued, otherwise mark the head visited
and append one `(friend, path + [friend])` entry per not-yet-visited friend. -/
def bfsLoop (net : CommunicationNetwork) (receiver_id : String) :
    Nat → List (String × List String) → List String → List String
  | 0, _, _ => []
  | _ + 1, [], _ => []
  | fuel + 1, (current_id, path) :: rest, visited =>
    if current_id ∈ visited then
      bfsLoop net receiver_id fuel rest visited
    else if current_id = receiver_id then
      path
    else
      let newVisited := current_id :: visited
      let ext :=
        match pLookup net.people current_id with
        | some person =>
            (person.connections.filter (fun f => decide (f ∉ newVisited))).map
              (fun f => (f, path ++ [f]))
        | none => []
      bfsLoop net receiver_id fuel (rest ++ ext) newVisited

/-- Total number of connection-list entries of the not-yet-visited people:
an upper bound on the queue entries the BFS can still enqueue. -/
def remCap (net : CommunicationNetwork) (visited : List String) : Nat :=
  ((net.people.filter (fun e => decide (e.1 ∉ visited))).map
    (fun e => e.2.connections.length)).sum

/-- `CommunicationNetwork.find_path`: the `sender_id == receiver_id` early
return, the membership check, then the BFS. The fuel `remCap net [] + 2`
provably suffices (see `bfs_correct`). -/
def CommunicationNetwork.find_path (net : CommunicationNetwork)
    (sender_id receiver_id : String) : List String :=
  if sender_id = receiver_id then [sender_id]
  else if ¬ (pLookup net.people sender_id).isSome ∨
      ¬ (pLookup net.people receiver_id).isSome then []
  else bfsLoop net receiver_id (remCap net [] + 2) [(sender_id, [sender_id])] []

/-- `CommunicationNetwork.send_message`. Returns the Python boolean together
with the network and the message object as they stand when the method
returns: the route is stamped onto the message as soon as a non-empty path is
found, before the delivery check. -/
def CommunicationNetwork.send_message (net : CommunicationNetwork)
    (message : Message) : Bool × CommunicationNetwork × Message :=
  let path := net.find_path message.sender_id message.receiver_id
  if path = [] then (false, net, message)
  else
    let message' := { message with route := path }
    if (pLookup net.people message.receiver_id).isSome then
      (true, ⟨updatePerson net.people message.receiver_id
        (fun p => p.add_message message')⟩, message')
    else
      (false, net, message')

/-- `CommunicationNetwork.get_person`. -/
def CommunicationNetwork.get_person (net : CommunicationNetwork)
    (person_id : String) : Option Person :=
  pLookup net.people person_id

/-- `CommunicationNetwork.get_messages`. -/
def CommunicationNetwork.get_messages (net : CommunicationNetwork)
    (person_id : String) : List Message :=
  match net.get_person person_id with
  | some p => p.messages
  | none => []

/-! ### Graph-side predicates used to state the routing claims -/

/-- A path in the direction the BFS walks: consecutive ids are connected by a
stored (forward) connection entry, the path starts at `s` and ends at `r`.
Nonemptiness is implied by `head? = some s`. -/
def IsPathFT (net : CommunicationNetwork) (s r : String) (p : List String) : Prop :=
  p.head? = some s ∧ p.getLast? = some r ∧
    List.Chain' (fun a b => b ∈ nbrs net a) p

/-- A friendship edge as the spec reads it: each endpoint is in the other's
connection set. -/
def FriendEdge (net : CommunicationNetwork) (a b : String) : Prop :=
  b ∈ nbrs net a ∧ a ∈ nbrs net b

/-- A friendship path from `s` to `r`: consecutive ids are mutual friends. -/
def FriendPath (net : CommunicationNetwork) (s r : String) (p : List String) : Prop :=
  p.head? = some s ∧ p.getLast? = some r ∧ List.Chain' (FriendEdge net) p

/-- The stored connection lists are symmetric (which `add_friendship`, the
single mutation point creating friendships, guarantees). -/
def NetSymm (net : CommunicationNetwork) : Prop :=
  ∀ a b : String, b ∈ nbrs net a → a ∈ nbrs net b

/-- Executable symmetry check over the store, used to discharge `NetSymm` on
concrete networks. -/
def symmCheck (net : CommunicationNetwork) : Bool :=
  net.people.all (fun e => e.2.connections.all (fun c => decide (e.1 ∈ nbrs net c)))

instance (net : CommunicationNetwork) : DecidableRel (FriendEdge net) := fun a b =>
  inferInstanceAs (Decidable (b ∈ nbrs net a ∧ a ∈ nbrs net b))

instance (net : CommunicationNetwork) (s r : String) (p : List String) :
    Decidable (FriendPath net s r p) :=
  inferInstanceAs (Decidable (_ ∧ _ ∧ _))

instance (net : CommunicationNetwork) (s r : String) (p : List String) :
    Decidable (IsPathFT net s r p) :=
  inferInstanceAs (Decidable (_ ∧ _ ∧ _))

/-- The loop invariant of the BFS in `find_path`. `lv` is a ghost level map
recording, for each visited id, (one less than) the length of the recorded
path with which it was dequeued and marked visited. -/
structure BfsInv (net : CommunicationNetwork) (sender receiver : String)
    (queue : List (String × List String)) (visited : List String)
    (lv : String → Nat) : Prop where
  entries : ∀ e ∈ queue, e.2 ≠ [] ∧ e.2.head? = some sender ∧
      e.2.getLast? = some e.1 ∧ List.Chain' (fun a b => b ∈ nbrs net a) e.2 ∧
      e.2.Nodup ∧ ∀ x ∈ e.2.dropLast, x ∈ visited
  levels : ∃ lvl : Nat, ∃ A B : List (String × List String), queue = A ++ B ∧
      (∀ e ∈ A, e.2.length = lvl) ∧ (∀ e ∈ B, e.2.length = lvl + 1)
  closure : ∀ u ∈ visited, ∀ w ∈ nbrs net u,
      (w ∈ visited ∧ lv w ≤ lv u + 1) ∨
      ∃ e ∈ queue, e.1 = w ∧ e.2.length ≤ lv u + 2
  vlev : ∀ v ∈ visited, ∀ e ∈ queue, lv v + 1 ≤ e.2.length
  src : (sender ∈ visited ∧ lv sender = 0) ∨
      ((sender, [sender]) ∈ queue ∧ sender ∉ visited)
  recv : receiver ∉ visited

/-! ### Sequences of mutating operations (for the symmetry invariant) -/

/-- One call of the mutating API: `add_person`, `add_friendship` or
`send_message`. -/
inductive NetOp where
  | addPerson (person_id name : String)
  | addFriendship (person1_id person2_id : String)
  | sendMessage (message : Message)

/-- Run one operation; a raising call leaves the store unchanged (both
`add_person` and `add_friendship` raise before any mutation). -/
def applyOp (net : CommunicationNetwork) : NetOp → CommunicationNetwork
  | NetOp.addPerson i n =>
    match net.add_person i n with
    | Except.ok r => r.1
    | Except.error _ => net
  | NetOp.addFriendship a b =>
    match net.add_friendship a b with
    | Except.ok r => r
    | Except.error _ => net
  | NetOp.sendMessage m => (net.send_message m).2.1

/-- Run a sequence of operations on a network created empty. -/
def runOps (ops : List NetOp) : CommunicationNetwork :=
  ops.foldl applyOp ⟨[]⟩

/-- Friendship symmetry of the store. -/
def SymStore (net : CommunicationNetwork) : Prop :=
  ∀ a b pa pb, pLookup net.people a = some pa → pLookup net.people b = some pb →
    (b ∈ pa.connections ↔ a ∈ pb.connections)

/-- Every stored connection id denotes a person present in the store. -/
def ConnPresent (net : CommunicationNetwork) : Prop :=
  ∀ a pa, pLookup net.people a = some pa →
    ∀ c ∈ pa.connections, (pLookup net.people c).isSome = true

/-- `create_sample_network` from core_communication.py: Riddle ↔ Leona ↔
Azul ↔ Vil plus the Riddle ↔ Azul shortcut (all calls succeed, so the
exception-free fold is the network it returns). -/
def create_sample_network : CommunicationNetwork :=
  runOps [NetOp.addPerson "riddle" "Riddle", NetOp.addPerson "leona" "Leona",
    NetOp.addPerson "azul" "Azul", NetOp.addPerson "vil" "Vil",
    NetOp.addFriendship "riddle" "leona", NetOp.addFriendship "leona" "azul",
    NetOp.addFriendship "azul" "vil", NetOp.addFriendship "riddle" "azul"]

/-! ### RSA: number-theoretic functions (rsa_encryption.py) -/

/-- `extended_gcd(a, b)`: the recursive extended Euclidean algorithm of the
source, returning `(gcd, x, y)` with `a*x + b*y = gcd`. Arguments stay
non-negative along the recursion, the coefficients are integers. -/
def extended_gcd (a b : Nat) : Nat × Int × Int :=
  if h : a = 0 then (b, 0, 1)
  else
    let r := extended_gcd (b % a) a
    (r.1, r.2.2 - ((b / a : Nat) : Int) * r.2.1, r.2.1)
termination_by a
decreasing_by exact Nat.mod_lt b (Nat.pos_of_ne_zero h)

/-- `mod_inverse(e, phi)`: raises `ValueError` when the gcd is not 1,
otherwise returns `(x % phi + phi) % phi` (Python `%` on a positive modulus
is `Int.emod`, which is non-negative, so the result is returned as a `Nat`). -/
def mod_inverse (e phi : Nat) : Except String Nat :=
  let r := extended_gcd e phi
  if r.1 ≠ 1 then Except.error "Modular inverse does not exist"
  else Except.ok ((r.2.1 % (phi : Int) + (phi : Int)) % (phi : Int)).toNat

/-! ### RSA: the transport encoding used by `encrypt_message`

`json.dumps(encrypted_ints)` renders the integer list as `[a, b, c]` with
decimal integers; `.encode()` is UTF-8; `base64.b64encode` / `b64decode` is
standard base64 with `=` padding; `.decode()` is UTF-8 again. All of these
are modelled executably below. -/

/-- Decimal digit characters of a Nat, most significant first, by the same
fuel-counting scheme as `Nat.toDigitsCore` (fuel `n + 1` always suffices). -/
def natToCharsAux : Nat → Nat → List Char → List Char
  | 0, _, acc => acc
  | fuel + 1, n, acc =>
    let acc' := Nat.digitChar (n % 10) :: acc
    if n < 10 then acc' else natToCharsAux fuel (n / 10) acc'

/-- Decimal rendering of a Nat, as `str(n)` / `json.dumps` render it. -/
def natToChars (n : Nat) : List Char := natToCharsAux (n + 1) n []

/-- Numeric value of a list of decimal digit characters. -/
def valOfDigits (cs : List Char) : Nat :=
  cs.foldl (fun a c => a * 10 + (c.toNat - 48)) 0

/-- The comma-space separated items of `json.dumps` of an integer list. -/
def jsonItemsChars : List Nat → List Char
  | [] => []
  | [n] => natToChars n
  | n :: rest => natToChars n ++ ',' :: ' ' :: jsonItemsChars rest

/-- `json.dumps` of a list of non-negative integers: `[a, b, c]`. -/
def jsonDumpsNatList (l : List Nat) : String :=
  String.mk ('[' :: (jsonItemsChars l ++ [']']))

/-- Parser for the item list of the integer-array fragment of `json.loads`
(exactly the strings `json.dumps` produces; anything else is a parse error,
which the caller turns into a `ValueError`). Fuel is the input length. -/
def jsonParseItemsAux : Nat → List Char → Option (List Nat)
  | 0, _ => none
  | fuel + 1, cs =>
    let ds := cs.takeWhile Char.isDigit
    let rest := cs.dropWhile Char.isDigit
    if ds = [] then none
    else
      match rest with
      | [']'] => some [valOfDigits ds]
      | ',' :: ' ' :: tail =>
        (jsonParseItemsAux fuel tail).map (fun t => valOfDigits ds :: t)
      | _ => none

/-- `json.loads` restricted to the integer-array strings produced by
`jsonDumpsNatList`. -/
def jsonParseNatList (s : String) : Option (List Nat) :=
  match s.data with
  | '[' :: rest => if rest = [']'] then some [] else jsonParseItemsAux rest.length rest
  | _ => none

/-- UTF-8 encoding of one character (Python `str.encode()`), as byte values. -/
def utf8EncodeChar (c : Char) : List Nat :=
  let v := c.toNat
  if v < 128 then [v]
  else if v < 2048 then [192 + v / 64, 128 + v % 64]
  else if v < 65536 then [224 + v / 4096, 128 + v / 64 % 64, 128 + v % 64]
  else [240 + v / 262144, 128 + v / 4096 % 64, 128 + v / 64 % 64, 128 + v % 64]

/-- Python `str.encode()`: UTF-8 bytes of a string. -/
def pyEncodeUTF8 (s : String) : List Nat :=
  (s.data.map utf8EncodeChar).flatten

/-- Python `bytes.decode()`: strict UTF-8 decoding, rejecting stray or
missing continuation bytes, overlong forms, surrogates and values beyond
U+10FFFF. `none` is a `UnicodeDecodeError`. Fuel-structured: each step
consumes at least one byte, so fuel equal to the byte count never runs out
(the `0, _ :: _` arm is unreachable from `utf8Decode`). -/
def utf8DecodeAux : Nat → List Nat → Option (List Char)
  | _, [] => some []
  | fuel + 1, b :: rest =>
    if b < 128 then (utf8DecodeAux fuel rest).map (fun cs => Char.ofNat b :: cs)
    else if b < 192 then none
    else if b < 224 then
      match rest with
      | b2 :: rest2 =>
        if 128 ≤ b2 ∧ b2 < 192 then
          let v := (b - 192) * 64 + (b2 - 128)
          if 128 ≤ v then (utf8DecodeAux fuel rest2).map (fun cs => Char.ofNat v :: cs)
          else none
        else none
      | [] => none
    else if b < 240 then
      match rest with
      | b2 :: b3 :: rest3 =>
        if (128 ≤ b2 ∧ b2 < 192) ∧ (128 ≤ b3 ∧ b3 < 192) then
          let v := (b - 224) * 4096 + (b2 - 128) * 64 + (b3 - 128)
          if 2048 ≤ v ∧ (v < 55296 ∨ 57344 ≤ v) then
            (utf8DecodeAux fuel rest3).map (fun cs => Char.ofNat v :: cs)
          else none
        else none
      | _ => none
    else if b < 248 then
      match rest with
      | b2 :: b3 :: b4 :: rest4 =>
        if (128 ≤ b2 ∧ b2 < 192) ∧ (128 ≤ b3 ∧ b3 < 192) ∧ (128 ≤ b4 ∧ b4 < 192) then
          let v := (b - 240) * 262144 + (b2 - 128) * 4096 + (b3 - 128) * 64 + (b4 - 128)
          if 65536 ≤ v ∧ v < 1114112 then
            (utf8DecodeAux fuel rest4).map (fun cs => Char.ofNat v :: cs)
          else none
        else none
      | _ => none
    else none
  | 0, _ :: _ => none

/-- Python `bytes.decode()` on a byte list. -/
def utf8Decode (bs : List Nat) : Option (List Char) :=
  utf8DecodeAux bs.length bs

/-- The standard base64 alphabet. -/
def b64Alphabet : List Char :=
  "ABCDEFGHIJKLMNOPQRSTUVWXYZabcdefghijklmnopqrstuvwxyz0123456789+/".data

/-- Byte value of the base64 character for a 6-bit group. -/
def b64Byte (i : Nat) : Nat := (b64Alphabet.getD i 'A').toNat

/-- `base64.b64encode`: bytes to base64 bytes, with `=` (byte 61) padding. -/
def b64EncodeBytes : List Nat → List Nat
  | [] => []
  | [b1] => [b64Byte (b1 / 4), b64Byte (b1 % 4 * 16), 61, 61]
  | [b1, b2] => [b64Byte (b1 / 4), b64Byte (b1 % 4 * 16 + b2 / 16),
      b64Byte (b2 % 16 * 4), 61]
  | b1 :: b2 :: b3 :: rest =>
    b64Byte (b1 / 4) :: b64Byte (b1 % 4 * 16 + b2 / 16) ::
      b64Byte (b2 % 16 * 4 + b3 / 64) :: b64Byte (b3 % 64) :: b64EncodeBytes rest

/-- Index of a byte in the base64 alphabet. -/
def b64Val (b : Nat) : Option Nat :=
  (b64Alphabet.map Char.toNat).findIdx? (fun x => x == b)

/-- `base64.b64decode`: base64 bytes back to bytes; `none` is a
`binascii.Error` (bad length, bad character, or data after padding). -/
def b64DecodeBytes : List Nat → Option (List Nat)
  | [] => some []
  | c1 :: c2 :: c3 :: c4 :: rest =>
    (b64Val c1).bind (fun s1 =>
      (b64Val c2).bind (fun s2 =>
        if c3 = 61 ∧ c4 = 61 ∧ rest = [] then
          some [s1 * 4 + s2 / 16]
        else if c4 = 61 ∧ rest = [] then
          (b64Val c3).map (fun s3 =>
            [s1 * 4 + s2 / 16, s2 % 16 * 16 + s3 / 4])
        else
          (b64Val c3).bind (fun s3 =>
            (b64Val c4).bind (fun s4 =>
              (b64DecodeBytes rest).map (fun tail =>
                (s1 * 4 + s2 / 16) :: (s2 % 16 * 16 + s3 / 4) ::
                  (s3 % 4 * 64 + s4) :: tail)))))
  | _ => none

/-! ### RSA: encryption and decryption (class RSAMessaging) -/

/-- The per-character encryption loop of `encrypt_message`: raises
`ValueError` at the first character whose code is `≥ n`, otherwise collects
`pow(char_int, e, n)` for each character. -/
def encryptInts (n e : Nat) : List Nat → Except String (List Nat)
  | [] => Except.ok []
  | c :: rest =>
    if c ≥ n then
      Except.error ("Character ASCII value " ++ toString c ++
        " too large for key size n=" ++ toString n)
    else
      (encryptInts n e rest).map (fun r => c ^ e % n :: r)

/-- `chr` restricted to code points Lean's `Char` can carry. Python's `chr`
also accepts surrogate code points, which a Lean `Char` (a Unicode scalar
value) cannot represent; no claim exercises that corner, and every value the
round-trip produces is the code of an original character. -/
def charOfCode (v : Nat) : Option Char :=
  if Nat.isValidChar v then some (Char.ofNat v) else none

/-- `RSAMessaging.encrypt_message(plaintext, (n, e))`: per-character modular
exponentiation, then `json.dumps`, `.encode()`, `base64.b64encode` and
`.decode()`, plus the metadata dict the source builds. The final `.decode()`
cannot fail (base64 output is ASCII), so the error branch of that match is
unreachable. -/
def RSAMessaging.encrypt_message (plaintext : String) (public_key : Nat × Nat) :
    Except String (String × Metadata) :=
  let n := public_key.1
  let e := public_key.2
  let message_ints := plaintext.data.map Char.toNat
  match encryptInts n e message_ints with
  | Except.error msg => Except.error msg
  | Except.ok encrypted_ints =>
    let encrypted_json := jsonDumpsNatList encrypted_ints
    match utf8Decode (b64EncodeBytes (pyEncodeUTF8 encrypted_json)) with
    | none => Except.error "UnicodeDecodeError"
    | some cs =>
      let encrypted_b64 := String.mk cs
      Except.ok (encrypted_b64,
        [("encryption", MetaVal.str "rsa"),
         ("original_length", MetaVal.num plaintext.length),
         ("encrypted_length", MetaVal.num encrypted_b64.length),
         ("public_key_n", MetaVal.num n),
         ("public_key_e", MetaVal.num e),
         ("character_count", MetaVal.num message_ints.length)])

/-- `RSAMessaging.decrypt_message(encrypted_message, (n, d))`: base64 decode,
UTF-8 decode, `json.loads`, then `chr(pow(c, d, n))` per integer; any failure
inside the `try` block becomes the single `ValueError` the source raises. -/
def RSAMessaging.decrypt_message (encrypted_message : String)
    (private_key : Nat × Nat) : Except String String :=
  let n := private_key.1
  let d := private_key.2
  let attempt : Option String :=
    (b64DecodeBytes (pyEncodeUTF8 encrypted_message)).bind (fun jsonBytes =>
      (utf8Decode jsonBytes).bind (fun jsonChars =>
        (jsonParseNatList (String.mk jsonChars)).bind (fun encrypted_ints =>
          ((encrypted_ints.map (fun c => c ^ d % n)).mapM charOfCode).map
            (fun chars => String.mk chars))))
  match attempt with
  | some s => Except.ok s
  | none => Except.error "RSA decryption failed"

/-! ## Theorems -/

/-! ### Branch behaviour of `find_path` (no BFS reasoning needed) -/

theorem find_path_self (net : CommunicationNetwork) (s : String) :
    net.find_path s s = [s] := by
  simp [CommunicationNetwork.find_path]

theorem find_path_absent (net : CommunicationNetwork) (s r : String)
    (hne : s ≠ r)
    (h : pLookup net.people s = none ∨ pLookup net.people r = none) :
    net.find_path s r = [] := by
  unfold CommunicationNetwork.find_path
  rw [if_neg hne, if_pos]
  rcases h with h | h <;> simp [h]

/-- C3, counterexample: on the empty store, `find_path("a", "a")` returns
`["a"]`, not the empty sequence, although `"a"` is absent — the
`sender == receiver` early return precedes the membership check. -/
theorem C3_counterexample :
    pLookup (CommunicationNetwork.mk []).people "a" = none ∧
      CommunicationNetwork.find_path ⟨[]⟩ "a" "a" ≠ [] := by
  constructor
  · rfl
  · intro h
    simp [CommunicationNetwork.find_path] at h

/-- C3 (amended): if either id is absent from the store and the two ids are
distinct, `find_path` returns the empty sequence; when `sender == receiver`
it returns `[sender]` even if that id is absent. -/
theorem C3_find_path_absent (net : CommunicationNetwork) (s r : String)
    (h : pLookup net.people s = none ∨ pLookup net.people r = none) :
    (s ≠ r → net.find_path s r = []) ∧ (s = r → net.find_path s r = [s]) := by
  constructor
  · intro hne
    exact find_path_absent net s r hne h
  · intro he
    subst he
    exact find_path_self net s

/-- Witness for C3's amended theorem at a concrete input. -/
theorem C3_witness :
    CommunicationNetwork.find_path ⟨[]⟩ "a" "b" = [] :=
  (C3_find_path_absent ⟨[]⟩ "a" "b" (Or.inl rfl)).1 (by decide)

/-- C2, counterexample: sending a message whose sender and receiver are the
same absent id fails, yet mutates the message's `route` field (the route is
stamped before the delivery check). -/
theorem C2_counterexample :
    (CommunicationNetwork.send_message ⟨[]⟩ ⟨"a", "a", "hello", "plain", [], []⟩).1 = false ∧
      (CommunicationNetwork.send_message ⟨[]⟩
        ⟨"a", "a", "hello", "plain", [], []⟩).2.2 ≠ ⟨"a", "a", "hello", "plain", [], []⟩ := by
  constructor
  · rfl
  · decide

/-- C2 (amended): whenever `send_message` returns failure the store is
unchanged — every mailbox and every connection set is exactly as before —
and the message is unchanged as well, except in the single corner where the
sender and receiver ids are equal and absent from the store, in which case
the message's route has been set to `[sender_id]` before the delivery check
fails. -/
theorem C2_send_failure_no_mutation (net : CommunicationNetwork) (m : Message)
    (hfail : (net.send_message m).1 = false) :
    (net.send_message m).2.1 = net ∧
      ((net.send_message m).2.2 = m ∨
        (m.sender_id = m.receiver_id ∧ pLookup net.people m.receiver_id = none ∧
          (net.send_message m).2.2 = { m with route := [m.sender_id] })) := by
  by_cases hp : net.find_path m.sender_id m.receiver_id = []
  · constructor
    · simp [CommunicationNetwork.send_message, hp]
    · left
      simp [CommunicationNetwork.send_message, hp]
  · by_cases hr : (pLookup net.people m.receiver_id).isSome
    · exfalso
      have : (net.send_message m).1 = true := by
        simp [CommunicationNetwork.send_message, hp, hr]
      rw [this] at hfail
      exact Bool.noConfusion hfail
    · have hnone : pLookup net.people m.receiver_id = none :=
        Option.not_isSome_iff_eq_none.mp hr
      have hsr : m.sender_id = m.receiver_id := by
        by_contra hne
        exact hp (find_path_absent net _ _ hne (Or.inr hnone))
      constructor
      · simp [CommunicationNetwork.send_message, hp, hr]
      · right
        refine ⟨hsr, hnone, ?_⟩
        have hpath : net.find_path m.sender_id m.receiver_id = [m.sender_id] := by
          rw [hsr]
          exact find_path_self net m.receiver_id
        simp [CommunicationNetwork.send_message, hp, hr, hpath]

/-- Witness for C2's amended theorem at a concrete failing send. -/
theorem C2_witness :
    (CommunicationNetwork.send_message ⟨[]⟩ ⟨"a", "b", "x", "plain", [], []⟩).2.1 = ⟨[]⟩ ∧
      ((CommunicationNetwork.send_message ⟨[]⟩ ⟨"a", "b", "x", "plain", [], []⟩).2.2 =
          ⟨"a", "b", "x", "plain", [], []⟩ ∨
        ("a" = "b" ∧ pLookup (CommunicationNetwork.mk []).people "b" = none ∧
          (CommunicationNetwork.send_message ⟨[]⟩ ⟨"a", "b", "x", "plain", [], []⟩).2.2 =
            ⟨"a", "b", "x", "plain", [], ["a"]⟩)) :=
  C2_send_failure_no_mutation ⟨[]⟩ ⟨"a", "b", "x", "plain", [], []⟩ (by decide)

/-! ### BFS: helper lemmas -/

theorem pLookup_mem {ps : List (String × Person)} {a : String} {p : Person}
    (h : pLookup ps a = some p) : (a, p) ∈ ps := by
  induction ps with
  | nil => exact absurd h (by simp [pLookup])
  | cons e rest ih =>
    obtain ⟨k, q⟩ := e
    by_cases he : k = a
    · simp only [pLookup] at h
      rw [if_pos he] at h
      injection h with h
      subst h
      subst he
      exact List.mem_cons_self _ _
    · simp only [pLookup] at h
      rw [if_neg he] at h
      exact List.mem_cons_of_mem _ (ih h)

theorem netSymm_of_check {net : CommunicationNetwork}
    (h : symmCheck net = true) : NetSymm net := by
  intro a b hba
  have hps : pLookup net.people a ≠ none := by
    intro hn
    rw [nbrs, hn] at hba
    exact absurd hba (List.not_mem_nil b)
  rcases Option.ne_none_iff_exists'.mp hps with ⟨pa, hpa⟩
  have hmem : (a, pa) ∈ net.people := pLookup_mem hpa
  have hb : b ∈ pa.connections := by
    rw [nbrs, hpa] at hba
    exact hba
  have := (List.all_eq_true.mp h) _ hmem
  have := (List.all_eq_true.mp this) _ hb
  exact of_decide_eq_true this

theorem bfsLoop_cons (net : CommunicationNetwork) (r : String) (fuel : Nat)
    (c : String) (p : List String) (rest : List (String × List String))
    (visited : List String) :
    bfsLoop net r (fuel + 1) ((c, p) :: rest) visited =
      if c ∈ visited then bfsLoop net r fuel rest visited
      else if c = r then p
      else bfsLoop net r fuel
        (rest ++ ((nbrs net c).filter (fun f => decide (f ∉ c :: visited))).map
          (fun f => (f, p ++ [f]))) (c :: visited) := by
  rcases h : pLookup net.people c with _ | person
  · simp [bfsLoop, h, nbrs]
  · simp only [bfsLoop, h, nbrs]

theorem queue_head_min {net : CommunicationNetwork} {sender receiver : String}
    {e : String × List String} {rest : List (String × List String)}
    {visited : List String} {lv : String → Nat}
    (inv : BfsInv net sender receiver (e :: rest) visited lv) :
    ∀ x ∈ e :: rest, e.2.length ≤ x.2.length := by
  rcases inv.levels with ⟨lvl, A, B, hq, hA, hB⟩
  intro x hx
  cases A with
  | nil =>
    have he : e.2.length = lvl + 1 := hB e (by rw [← List.nil_append B, ← hq]; exact List.mem_cons_self e rest)
    have hx2 : x.2.length = lvl + 1 := hB x (by rw [← List.nil_append B, ← hq]; exact hx)
    omega
  | cons a A2 =>
    have hea : e = a := by
      have : e :: rest = a :: (A2 ++ B) := by rw [hq]; rfl
      exact (List.cons.injEq _ _ _ _ ▸ this).1
    have he : e.2.length = lvl := hA e (hea ▸ List.mem_cons_self a A2)
    rw [hq] at hx
    rcases List.mem_append.mp hx with hxa | hxb
    · rw [he, hA x hxa]
    · rw [he, hB x hxb]
      omega

theorem sumConns_mono (ps : List (String × Person)) (c : String)
    (visited : List String) :
    ((ps.filter (fun e => decide (e.1 ∉ c :: visited))).map
      (fun e => e.2.connections.length)).sum ≤
    ((ps.filter (fun e => decide (e.1 ∉ visited))).map
      (fun e => e.2.connections.length)).sum := by
  induction ps with
  | nil => simp
  | cons e rest ih =>
    by_cases h1 : e.1 ∈ c :: visited
    · by_cases h2 : e.1 ∈ visited
      · simp only [List.filter_cons, decide_eq_true_iff]
        rw [if_neg (by simp [h1]), if_neg (by simp [h2])]
        exact ih
      · simp only [List.filter_cons, decide_eq_true_iff]
        rw [if_neg (by simp [h1]), if_pos (by simp [h2])]
        simp only [List.map_cons, List.sum_cons]
        omega
    · have h2 : e.1 ∉ visited := fun hm => h1 (List.mem_cons_of_mem c hm)
      simp only [List.filter_cons, decide_eq_true_iff]
      rw [if_pos (by simp [h1]), if_pos (by simp [h2])]
      simp only [List.map_cons, List.sum_cons]
      omega

theorem sumConns_drop (ps : List (String × Person)) (c : String)
    (visited : List String) (person : Person)
    (h : pLookup ps c = some person) (hc : c ∉ visited) :
    ((ps.filter (fun e => decide (e.1 ∉ c :: visited))).map
      (fun e => e.2.connections.length)).sum + person.connections.length ≤
    ((ps.filter (fun e => decide (e.1 ∉ visited))).map
      (fun e => e.2.connections.length)).sum := by
  induction ps with
  | nil => exact absurd h (by simp [pLookup])
  | cons e rest ih =>
    by_cases he : e.1 = c
    · rw [pLookup, if_pos he] at h
      cases h
      simp only [List.filter_cons, decide_eq_true_iff]
      rw [if_neg (by simp [he]), if_pos (by simp [he, hc])]
      simp only [List.map_cons, List.sum_cons]
      have := sumConns_mono rest c visited
      omega
    · rw [pLookup, if_neg he] at h
      by_cases h2 : e.1 ∈ visited
      · simp only [List.filter_cons, decide_eq_true_iff]
        rw [if_neg (by simp [h2]), if_neg (by simp [h2])]
        exact ih h
      · simp only [List.filter_cons, decide_eq_true_iff]
        rw [if_pos (by simp [he, h2]), if_pos (by simp [h2])]
        simp only [List.map_cons, List.sum_cons]
        have := ih h
        omega

theorem remCap_mono (net : CommunicationNetwork) (c : String)
    (visited : List String) : remCap net (c :: visited) ≤ remCap net visited :=
  sumConns_mono net.people c visited

theorem remCap_drop (net : CommunicationNetwork) (c : String)
    (visited : List String) (person : Person)
    (h : pLookup net.people c = some person) (hc : c ∉ visited) :
    remCap net (c :: visited) + person.connections.length ≤ remCap net visited :=
  sumConns_drop net.people c visited person h hc

/-! ### BFS: the walk argument (completeness and minimality in one) -/

theorem bfs_walk {net : CommunicationNetwork} {sender receiver : String}
    {queue : List (String × List String)} {visited : List String}
    {lv : String → Nat}
    (inv : BfsInv net sender receiver queue visited lv)
    {v : String} {q : List String} (hq : IsPathFT net sender v q) :
    ∀ j (hj : j < q.length),
      (q.get ⟨j, hj⟩ ∈ visited ∧ lv (q.get ⟨j, hj⟩) ≤ j) ∨
      ∃ e ∈ queue, e.2.length ≤ j + 1 := by
  obtain ⟨hhead, hlast, hchain⟩ := hq
  intro j
  induction j with
  | zero =>
    intro hj
    have hs : q.get ⟨0, hj⟩ = sender := by
      cases q with
      | nil => simp at hj
      | cons a t =>
        have ha : a = sender := by simpa using hhead
        exact ha
    rw [hs]
    rcases inv.src with ⟨h1, h2⟩ | ⟨h1, _⟩
    · exact Or.inl ⟨h1, by omega⟩
    · exact Or.inr ⟨(sender, [sender]), h1, by simp⟩
  | succ j ih =>
    intro hj
    have hj' : j < q.length := by omega
    rcases ih hj' with ⟨hv, hlv⟩ | ⟨e, he, hlen⟩
    · have hedge : q.get ⟨j + 1, hj⟩ ∈ nbrs net (q.get ⟨j, hj'⟩) := by
        have h := List.chain'_iff_get.mp hchain j (by omega)
        exact h
      rcases inv.closure _ hv _ hedge with ⟨h1, h2⟩ | ⟨e, he, _, hlen⟩
      · exact Or.inl ⟨h1, by omega⟩
      · exact Or.inr ⟨e, he, by omega⟩
    · exact Or.inr ⟨e, he, by omega⟩

theorem bfs_walk_last {net : CommunicationNetwork} {sender receiver : String}
    {queue : List (String × List String)} {visited : List String}
    {lv : String → Nat}
    (inv : BfsInv net sender receiver queue visited lv)
    {q : List String} (hq : IsPathFT net sender receiver q) :
    receiver ∈ visited ∨ ∃ e ∈ queue, e.2.length ≤ q.length := by
  have hqne : q ≠ [] := by
    intro h
    rw [h] at hq
    exact Option.noConfusion hq.1
  have hpos : 0 < q.length := List.length_pos.mpr hqne
  have hlast : q.get ⟨q.length - 1, by omega⟩ = receiver := by
    have h1 : q.getLast? = some (q.getLast hqne) := List.getLast?_eq_getLast q hqne
    rw [hq.2.1] at h1
    injection h1 with h1
    rw [List.getLast_eq_get] at h1
    exact h1.symm
  rcases bfs_walk inv hq (q.length - 1) (by omega) with ⟨hv, _⟩ | ⟨e, he, hlen⟩
  · rw [hlast] at hv
    exact Or.inl hv
  · exact Or.inr ⟨e, he, by omega⟩

/-! ### BFS: invariant preservation -/

theorem bfsInv_skip {net : CommunicationNetwork} {sender receiver c : String}
    {p : List String} {rest : List (String × List String)}
    {visited : List String} {lv : String → Nat}
    (inv : BfsInv net sender receiver ((c, p) :: rest) visited lv)
    (hc : c ∈ visited) :
    BfsInv net sender receiver rest visited lv := by
  constructor
  · intro e he
    exact inv.entries e (List.mem_cons_of_mem _ he)
  · rcases inv.levels with ⟨lvl, A, B, hq, hA, hB⟩
    cases A with
    | nil =>
      cases B with
      | nil => exact absurd hq (by simp)
      | cons b B2 =>
        refine ⟨lvl + 1, B2, [], ?_, ?_, ?_⟩
        · have : (c, p) :: rest = b :: B2 := hq
          simp [List.cons.injEq] at this
          simp [this.2]
        · intro e he
          exact hB e (List.mem_cons_of_mem _ he)
        · intro e he
          exact absurd he (List.not_mem_nil e)
    | cons a A2 =>
      have hres : rest = A2 ++ B := by
        have : (c, p) :: rest = a :: (A2 ++ B) := hq
        exact (List.cons.injEq _ _ _ _ ▸ this).2
      exact ⟨lvl, A2, B, hres, fun e he => hA e (List.mem_cons_of_mem _ he), hB⟩
  · intro u hu w hw
    rcases inv.closure u hu w hw with h | ⟨e, he, h1, h2⟩
    · exact Or.inl h
    · rcases List.mem_cons.mp he with rfl | he2
      · left
        have hwc : w = c := h1.symm
        subst hwc
        have hv := inv.vlev w hc (w, p) (List.mem_cons_self _ _)
        constructor
        · exact hc
        · omega
      · exact Or.inr ⟨e, he2, h1, h2⟩
  · intro v hv e he
    exact inv.vlev v hv e (List.mem_cons_of_mem _ he)
  · rcases inv.src with h | ⟨h1, h2⟩
    · exact Or.inl h
    · rcases List.mem_cons.mp h1 with heq | h1'
      · exfalso
        have : sender = c := congrArg Prod.fst heq
        rw [this] at h2
        exact h2 hc
      · exact Or.inr ⟨h1', h2⟩
  · exact inv.recv

theorem bfsInv_expand {net : CommunicationNetwork} {sender receiver c : String}
    {p : List String} {rest : List (String × List String)}
    {visited : List String} {lv : String → Nat}
    (inv : BfsInv net sender receiver ((c, p) :: rest) visited lv)
    (hc : c ∉ visited) (hcr : c ≠ receiver) :
    BfsInv net sender receiver
      (rest ++ ((nbrs net c).filter (fun f => decide (f ∉ c :: visited))).map
        (fun f => (f, p ++ [f])))
      (c :: visited)
      (fun x => if x = c then p.length - 1 else lv x) := by
  obtain ⟨hpne, hphead, hplast, hpchain, hpnodup, hpdrop⟩ :=
    inv.entries (c, p) (List.mem_cons_self _ _)
  have hmin := queue_head_min inv
  have hplen : 1 ≤ p.length := List.length_pos.mpr hpne
  have hgl : p.getLast hpne = c := by
    have h1 : p.getLast? = some (p.getLast hpne) := List.getLast?_eq_getLast p hpne
    rw [hplast] at h1
    injection h1 with h1
    exact h1.symm
  have hsplit : p.dropLast ++ [c] = p := by
    rw [← hgl]
    exact List.dropLast_append_getLast hpne
  have hmemp : ∀ x ∈ p, x ∈ c :: visited := by
    intro x hx
    rw [← hsplit] at hx
    rcases List.mem_append.mp hx with hx | hx
    · exact List.mem_cons_of_mem _ (hpdrop x hx)
    · simp at hx
      simp [hx]
  have hext : ∀ e ∈ ((nbrs net c).filter (fun f => decide (f ∉ c :: visited))).map
      (fun f => (f, p ++ [f])),
      e.1 ∈ nbrs net c ∧ e.1 ∉ c :: visited ∧ e = (e.1, p ++ [e.1]) := by
    intro e he
    rcases List.mem_map.mp he with ⟨f, hf, rfl⟩
    rcases List.mem_filter.mp hf with ⟨hf1, hf2⟩
    exact ⟨hf1, of_decide_eq_true hf2, rfl⟩
  constructor
  · -- entries
    intro e he
    rcases List.mem_append.mp he with he | he
    · obtain ⟨h1, h2, h3, h4, h5, h6⟩ := inv.entries e (List.mem_cons_of_mem _ he)
      exact ⟨h1, h2, h3, h4, h5, fun x hx => List.mem_cons_of_mem _ (h6 x hx)⟩
    · obtain ⟨hf1, hf2, hfe⟩ := hext e he
      rw [hfe]
      have hfnp : e.1 ∉ p := fun hmem => hf2 (hmemp _ hmem)
      refine ⟨by simp, ?_, ?_, ?_, ?_, ?_⟩
      · rw [List.head?_append, hphead]
        rfl
      · exact List.getLast?_concat p
      · rw [List.chain'_append]
        refine ⟨hpchain, List.chain'_singleton _, ?_⟩
        intro x hx y hy
        rw [hplast] at hx
        simp at hx hy
        cases hx
        cases hy
        exact hf1
      · rw [List.nodup_append]
        refine ⟨hpnodup, List.nodup_singleton _, ?_⟩
        intro x hx1 hx2
        simp at hx2
        subst hx2
        exact hfnp hx1
      · rw [List.dropLast_concat]
        exact hmemp
  · -- levels
    rcases inv.levels with ⟨lvl, A, B, hq, hA, hB⟩
    cases A with
    | nil =>
      cases B with
      | nil => exact absurd hq (by simp)
      | cons b B2 =>
        rw [List.nil_append] at hq
        injection hq with hb hrest
        subst hrest
        have hbl : p.length = lvl + 1 := by
          have h := hB b (List.mem_cons_self _ _)
          rw [← hb] at h
          exact h
        refine ⟨lvl + 1, rest,
          ((nbrs net c).filter (fun f => decide (f ∉ c :: visited))).map
            (fun f => (f, p ++ [f])), rfl, ?_, ?_⟩
        · intro e he
          exact hB e (List.mem_cons_of_mem _ he)
        · intro e he
          obtain ⟨_, _, hfe⟩ := hext e he
          rw [hfe]
          simp
          omega
    | cons a A2 =>
      rw [List.cons_append] at hq
      injection hq with ha hrest
      subst hrest
      have hpl : p.length = lvl := by
        have h := hA a (List.mem_cons_self _ _)
        rw [← ha] at h
        exact h
      refine ⟨lvl, A2, B ++ ((nbrs net c).filter (fun f => decide (f ∉ c :: visited))).map
          (fun f => (f, p ++ [f])), List.append_assoc _ _ _, ?_, ?_⟩
      · intro e he
        exact hA e (List.mem_cons_of_mem _ he)
      · intro e he
        rcases List.mem_append.mp he with he | he
        · exact hB e he
        · obtain ⟨_, _, hfe⟩ := hext e he
          rw [hfe]
          simp
          omega
  · -- closure
    intro u hu w hw
    rcases List.mem_cons.mp hu with rfl | hu2
    · by_cases hwc : w ∈ u :: visited
      · left
        refine ⟨hwc, ?_⟩
        rcases List.mem_cons.mp hwc with rfl | hwv
        · simp
        · have hwneu : w ≠ u := fun h => hc (h ▸ hwv)
          rw [if_neg hwneu, if_pos rfl]
          have h : lv w + 1 ≤ p.length :=
            inv.vlev w hwv (u, p) (List.mem_cons_self _ _)
          omega
      · right
        refine ⟨(w, p ++ [w]), ?_, rfl, ?_⟩
        · apply List.mem_append.mpr
          right
          apply List.mem_map.mpr
          exact ⟨w, List.mem_filter.mpr ⟨hw, decide_eq_true hwc⟩, rfl⟩
        · rw [if_pos rfl]
          simp
          omega
    · have hunec : u ≠ c := fun h => hc (h ▸ hu2)
      rcases inv.closure u hu2 w hw with ⟨h1, h2⟩ | ⟨e, he, h1, h2⟩
      · left
        have hwnec : w ≠ c := fun h => hc (h ▸ h1)
        rw [if_neg hwnec, if_neg hunec]
        exact ⟨List.mem_cons_of_mem _ h1, h2⟩
      · rcases List.mem_cons.mp he with rfl | he2
        · left
          have hwc : w = c := h1.symm
          subst hwc
          rw [if_neg hunec, if_pos rfl]
          refine ⟨List.mem_cons_self _ _, ?_⟩
          have h3 : p.length ≤ lv u + 2 := h2
          omega
        · right
          refine ⟨e, List.mem_append.mpr (Or.inl he2), h1, ?_⟩
          rw [if_neg hunec]
          exact h2
  · -- vlev
    intro v hv e he
    rcases List.mem_cons.mp hv with rfl | hv2
    · rw [if_pos rfl]
      rcases List.mem_append.mp he with he | he
      · have h : p.length ≤ e.2.length := hmin e (List.mem_cons_of_mem _ he)
        omega
      · obtain ⟨_, _, hfe⟩ := hext e he
        rw [hfe]
        simp only [List.length_append, List.length_singleton]
        omega
    · have hvnec : v ≠ c := fun h => hc (h ▸ hv2)
      rw [if_neg hvnec]
      rcases List.mem_append.mp he with he | he
      · exact inv.vlev v hv2 e (List.mem_cons_of_mem _ he)
      · obtain ⟨_, _, hfe⟩ := hext e he
        have h : lv v + 1 ≤ p.length :=
          inv.vlev v hv2 (c, p) (List.mem_cons_self _ _)
        rw [hfe]
        simp only [List.length_append, List.length_singleton]
        omega
  · -- src
    by_cases hsc : sender = c
    · left
      subst hsc
      refine ⟨List.mem_cons_self _ _, ?_⟩
      rw [if_pos rfl]
      rcases inv.src with ⟨h1, _⟩ | ⟨h1, _⟩
      · exact absurd h1 hc
      · have h := hmin (sender, [sender]) h1
        simp at h
        omega
    · rcases inv.src with ⟨h1, h2⟩ | ⟨h1, h2⟩
      · left
        refine ⟨List.mem_cons_of_mem _ h1, ?_⟩
        rw [if_neg hsc]
        exact h2
      · rcases List.mem_cons.mp h1 with heq | h1'
        · exact absurd (congrArg Prod.fst heq) hsc
        · right
          refine ⟨List.mem_append.mpr (Or.inl h1'), ?_⟩
          intro hmem
          rcases List.mem_cons.mp hmem with h | h
          · exact hsc h
          · exact h2 h
  · -- recv
    intro hmem
    rcases List.mem_cons.mp hmem with h | h
    · exact hcr h.symm
    · exact inv.recv h

/-! ### BFS: the main correctness lemma -/

theorem bfs_correct (net : CommunicationNetwork) (sender receiver : String) :
    ∀ (fuel : Nat) (queue : List (String × List String)) (visited : List String)
      (lv : String → Nat),
      BfsInv net sender receiver queue visited lv →
      queue.length + 1 + remCap net visited ≤ fuel →
      (bfsLoop net receiver fuel queue visited = [] →
        ∀ q, ¬ IsPathFT net sender receiver q) ∧
      (bfsLoop net receiver fuel queue visited ≠ [] →
        (bfsLoop net receiver fuel queue visited).head? = some sender ∧
        (bfsLoop net receiver fuel queue visited).getLast? = some receiver ∧
        List.Chain' (fun a b => b ∈ nbrs net a)
          (bfsLoop net receiver fuel queue visited) ∧
        (bfsLoop net receiver fuel queue visited).Nodup ∧
        ∀ q, IsPathFT net sender receiver q →
          (bfsLoop net receiver fuel queue visited).length ≤ q.length) := by
  intro fuel
  induction fuel with
  | zero =>
    intro queue visited lv inv hfuel
    exact absurd hfuel (by omega)
  | succ fuel ih =>
    intro queue visited lv inv hfuel
    cases queue with
    | nil =>
      constructor
      · intro _ q hq
        rcases bfs_walk_last inv hq with hv | ⟨e, he, _⟩
        · exact inv.recv hv
        · exact absurd he (List.not_mem_nil e)
      · intro hne
        exact absurd rfl hne
    | cons e rest =>
      obtain ⟨c, p⟩ := e
      rw [bfsLoop_cons]
      by_cases hcv : c ∈ visited
      · rw [if_pos hcv]
        apply ih rest visited lv (bfsInv_skip inv hcv)
        simp only [List.length_cons] at hfuel
        omega
      · rw [if_neg hcv]
        by_cases hcr : c = receiver
        · rw [if_pos hcr]
          obtain ⟨hpne, hphead, hplast, hpchain, hpnodup, _⟩ :=
            inv.entries (c, p) (List.mem_cons_self _ _)
          constructor
          · intro hpe
            exact absurd hpe hpne
          · intro _
            refine ⟨hphead, by rw [← hcr]; exact hplast, hpchain, hpnodup, ?_⟩
            intro q hq
            rcases bfs_walk_last inv hq with hv | ⟨e2, he2, hlen⟩
            · exact absurd hv inv.recv
            · have hm : p.length ≤ e2.2.length := queue_head_min inv e2 he2
              omega
        · rw [if_neg hcr]
          apply ih _ _ _ (bfsInv_expand inv hcv hcr)
          have hextlen :
              (((nbrs net c).filter (fun f => decide (f ∉ c :: visited))).map
                (fun f => (f, p ++ [f]))).length ≤ (nbrs net c).length := by
            rw [List.length_map]
            exact List.length_filter_le _ _
          rw [List.length_append]
          simp only [List.length_cons] at hfuel
          rcases hl : pLookup net.people c with _ | person
          · have hmono := remCap_mono net c visited
            have hn : (nbrs net c).length = 0 := by rw [nbrs, hl]; rfl
            omega
          · have hnlen : (nbrs net c).length = person.connections.length := by
              rw [nbrs, hl]
            have hdrop := remCap_drop net c visited person hl hcv
            omega

/-! ### `find_path`: soundness, completeness, minimality -/

theorem find_path_initial_inv (net : CommunicationNetwork) (s r : String)
    (hne : s ≠ r) :
    BfsInv net s r [(s, [s])] [] (fun _ => 0) := by
  constructor
  · intro e he
    simp at he
    subst he
    refine ⟨by simp, rfl, rfl, List.chain'_singleton _, List.nodup_singleton _, ?_⟩
    intro x hx
    simp at hx
  · exact ⟨1, [(s, [s])], [], by simp, fun e he => by simp at he; simp [he], fun e he => by simp at he⟩
  · intro u hu
    exact absurd hu (List.not_mem_nil u)
  · intro v hv
    exact absurd hv (List.not_mem_nil v)
  · right
    exact ⟨List.mem_cons_self _ _, List.not_mem_nil s⟩
  · exact List.not_mem_nil r

theorem find_path_bfs (net : CommunicationNetwork) (s r : String) (hne : s ≠ r)
    (hs : (pLookup net.people s).isSome = true)
    (hr : (pLookup net.people r).isSome = true) :
    net.find_path s r = bfsLoop net r (remCap net [] + 2) [(s, [s])] [] := by
  unfold CommunicationNetwork.find_path
  rw [if_neg hne, if_neg]
  simp [hs, hr]

theorem find_path_sound (net : CommunicationNetwork) (s r : String)
    (h : net.find_path s r ≠ []) :
    (net.find_path s r).head? = some s ∧
      (net.find_path s r).getLast? = some r ∧
      List.Chain' (fun a b => b ∈ nbrs net a) (net.find_path s r) ∧
      (net.find_path s r).Nodup := by
  by_cases hsr : s = r
  · subst hsr
    rw [find_path_self]
    exact ⟨rfl, rfl, List.chain'_singleton _, List.nodup_singleton _⟩
  · by_cases hs : (pLookup net.people s).isSome
    · by_cases hr : (pLookup net.people r).isSome
      · rw [find_path_bfs net s r hsr hs hr] at h ⊢
        have H := bfs_correct net s r (remCap net [] + 2) [(s, [s])] []
          (fun _ => 0) (find_path_initial_inv net s r hsr) (by simp; omega)
        obtain ⟨h1, h2, h3, h4, _⟩ := H.2 h
        exact ⟨h1, h2, h3, h4⟩
      · exact absurd (find_path_absent net s r hsr
          (Or.inr (Option.not_isSome_iff_eq_none.mp hr))) h
    · exact absurd (find_path_absent net s r hsr
        (Or.inl (Option.not_isSome_iff_eq_none.mp hs))) h

theorem find_path_complete_minimal (net : CommunicationNetwork) (s r : String)
    (hne : s ≠ r) (hs : (pLookup net.people s).isSome = true)
    (hr : (pLookup net.people r).isSome = true)
    (hex : ∃ q, IsPathFT net s r q) :
    net.find_path s r ≠ [] ∧
      ∀ q, IsPathFT net s r q → (net.find_path s r).length ≤ q.length := by
  rw [find_path_bfs net s r hne hs hr]
  have H := bfs_correct net s r (remCap net [] + 2) [(s, [s])] []
    (fun _ => 0) (find_path_initial_inv net s r hne) (by simp; omega)
  have hne2 : bfsLoop net r (remCap net [] + 2) [(s, [s])] [] ≠ [] := by
    intro h0
    rcases hex with ⟨q, hq⟩
    exact H.1 h0 q hq
  exact ⟨hne2, (H.2 hne2).2.2.2.2⟩

/-! ### Claims C9, C10, C1 -/

/-- C9: whenever delivery sets a message's route (i.e. the route field of the
message after `send_message` differs from what it was, which happens exactly
when a non-empty path was stamped), the stamped route is non-empty, its first
element is the message's sender id and its last element is the message's
receiver id; otherwise the route is untouched. -/
theorem C9_route_invariant (net : CommunicationNetwork) (m : Message) :
    (net.send_message m).2.2.route = m.route ∨
      ((net.send_message m).2.2.route ≠ [] ∧
        (net.send_message m).2.2.route.head? = some m.sender_id ∧
        (net.send_message m).2.2.route.getLast? = some m.receiver_id) := by
  by_cases hp : net.find_path m.sender_id m.receiver_id = []
  · left
    simp [CommunicationNetwork.send_message, hp]
  · right
    have hs := find_path_sound net _ _ hp
    have hroute : (net.send_message m).2.2.route =
        net.find_path m.sender_id m.receiver_id := by
      by_cases hr : (pLookup net.people m.receiver_id).isSome <;>
        simp [CommunicationNetwork.send_message, hp, hr]
    rw [hroute]
    exact ⟨hp, hs.1, hs.2.1⟩

/-- C10: on a network with symmetric connection sets (which every network
built through `add_friendship` has), every non-empty sequence `find_path`
returns is a simple walk in the friend graph: no id occurs twice, and every
two consecutive ids are mutual friends. -/
theorem C10_find_path_simple_walk (net : CommunicationNetwork) (s r : String)
    (hsym : NetSymm net) (h : net.find_path s r ≠ []) :
    (net.find_path s r).Nodup ∧
      List.Chain' (FriendEdge net) (net.find_path s r) := by
  obtain ⟨_, _, hchain, hnodup⟩ := find_path_sound net s r h
  refine ⟨hnodup, ?_⟩
  exact List.Chain'.imp (fun a b hab => ⟨hab, hsym a b hab⟩) hchain

/-- Witness for C10 on the sample network (riddle to vil). -/
theorem C10_witness :
    (create_sample_network.find_path "riddle" "vil").Nodup ∧
      List.Chain' (FriendEdge create_sample_network)
        (create_sample_network.find_path "riddle" "vil") :=
  C10_find_path_simple_walk create_sample_network "riddle" "vil"
    (netSymm_of_check (by decide)) (by decide)

/-- C1: on a network with symmetric connection sets, for ids `s ≠ r` both
present in the store, if any friendship path from `s` to `r` exists then
`find_path` returns a friendship path from `s` to `r` of minimal hop count:
no strictly shorter `s`-to-`r` friendship path exists in the graph. -/
theorem C1_find_path_shortest (net : CommunicationNetwork) (s r : String)
    (hsym : NetSymm net) (hs : (pLookup net.people s).isSome = true)
    (hr : (pLookup net.people r).isSome = true) (hne : s ≠ r)
    (hex : ∃ q, FriendPath net s r q) :
    FriendPath net s r (net.find_path s r) ∧
      ∀ q, FriendPath net s r q → (net.find_path s r).length ≤ q.length := by
  have hforward : ∀ q, FriendPath net s r q → IsPathFT net s r q := by
    intro q hq
    exact ⟨hq.1, hq.2.1, List.Chain'.imp (fun a b hab => hab.1) hq.2.2⟩
  have hex2 : ∃ q, IsPathFT net s r q := by
    rcases hex with ⟨q, hq⟩
    exact ⟨q, hforward q hq⟩
  obtain ⟨hne2, hmin⟩ := find_path_complete_minimal net s r hne hs hr hex2
  obtain ⟨h1, h2, h3, _⟩ := find_path_sound net s r hne2
  refine ⟨⟨h1, h2, List.Chain'.imp (fun a b hab => ⟨hab, hsym a b hab⟩) h3⟩, ?_⟩
  intro q hq
  exact hmin q (hforward q hq)

/-- Witness for C1 on the sample network: riddle and vil are present and
joined by the chain riddle-leona-azul-vil, and the returned path's length is
minimal. -/
theorem C1_witness :
    FriendPath create_sample_network "riddle" "vil"
        (create_sample_network.find_path "riddle" "vil") ∧
      ∀ q, FriendPath create_sample_network "riddle" "vil" q →
        (create_sample_network.find_path "riddle" "vil").length ≤ q.length :=
  C1_find_path_shortest create_sample_network "riddle" "vil"
    (netSymm_of_check (by decide)) (by decide) (by decide) (by decide)
    ⟨["riddle", "leona", "azul", "vil"], by
      refine ⟨rfl, rfl, ?_⟩
      simp only [List.chain'_cons, List.chain'_singleton, FriendEdge]
      decide⟩

/-! ### The symmetry invariant (C5) -/

theorem pLookup_append (ps qs : List (String × Person)) (x : String) :
    pLookup (ps ++ qs) x =
      match pLookup ps x with
      | some p => some p
      | none => pLookup qs x := by
  induction ps with
  | nil => rfl
  | cons e rest ih =>
    by_cases he : e.1 = x
    · simp [pLookup, he]
    · simp [pLookup, he, ih]

theorem pLookup_updatePerson_same (ps : List (String × Person)) (i : String)
    (f : Person → Person) :
    pLookup (updatePerson ps i f) i = (pLookup ps i).map f := by
  induction ps with
  | nil => rfl
  | cons e rest ih =>
    by_cases he : e.1 = i
    · simp [updatePerson, pLookup, he]
    · simp [updatePerson, pLookup, he] at ih ⊢
      exact ih

theorem pLookup_updatePerson_ne (ps : List (String × Person)) (i x : String)
    (f : Person → Person) (h : x ≠ i) :
    pLookup (updatePerson ps i f) x = pLookup ps x := by
  induction ps with
  | nil => rfl
  | cons e rest ih =>
    obtain ⟨k, q⟩ := e
    simp only [updatePerson, List.map_cons] at ih ⊢
    by_cases hki : k = i
    · rw [if_pos hki]
      have hkx : ¬ k = x := fun hh => h (hh.symm.trans hki)
      simp only [pLookup]
      rw [if_neg hkx, if_neg hkx]
      exact ih
    · rw [if_neg hki]
      simp only [pLookup]
      by_cases hkx : k = x
      · rw [if_pos hkx, if_pos hkx]
      · rw [if_neg hkx, if_neg hkx]
        exact ih

theorem mem_add_friend (p : Person) (c y : String) :
    y ∈ (p.add_friend c).connections ↔ y ∈ p.connections ∨ y = c := by
  rw [Person.add_friend]
  by_cases hm : c ∈ p.connections
  · rw [if_pos hm]
    constructor
    · exact Or.inl
    · rintro (h | rfl)
      · exact h
      · exact hm
  · rw [if_neg hm]
    simp

theorem friendship_lookup (ps : List (String × Person)) (a b x : String) :
    pLookup (updatePerson (updatePerson ps a (fun p => p.add_friend b)) b
        (fun p => p.add_friend a)) x =
      (pLookup ps x).map (fun px =>
        if x = b then
          (if x = a then (px.add_friend b).add_friend a else px.add_friend a)
        else (if x = a then px.add_friend b else px)) := by
  by_cases hxb : x = b
  · subst hxb
    rw [pLookup_updatePerson_same]
    by_cases hxa : x = a
    · subst hxa
      rw [pLookup_updatePerson_same]
      cases pLookup ps x <;> simp
    · rw [pLookup_updatePerson_ne _ _ _ _ hxa]
      simp [hxa]
  · rw [pLookup_updatePerson_ne _ _ _ _ hxb]
    by_cases hxa : x = a
    · subst hxa
      rw [pLookup_updatePerson_same]
      simp [hxb]
    · rw [pLookup_updatePerson_ne _ _ _ _ hxa]
      simp [hxb, hxa]

theorem mem_friendF (a b x : String) (px : Person) (y : String) :
    y ∈ (if x = b then (if x = a then (px.add_friend b).add_friend a
          else px.add_friend a)
        else (if x = a then px.add_friend b else px)).connections ↔
      (y ∈ px.connections ∨ (x = a ∧ y = b) ∨ (x = b ∧ y = a)) := by
  by_cases hxb : x = b
  · subst hxb
    by_cases hxa : x = a
    · subst hxa
      rw [if_pos rfl, if_pos rfl, mem_add_friend, mem_add_friend]
      tauto
    · rw [if_pos rfl, if_neg hxa, mem_add_friend]
      tauto
  · by_cases hxa : x = a
    · subst hxa
      rw [if_neg hxb, if_pos rfl, mem_add_friend]
      tauto
    · rw [if_neg hxb, if_neg hxa]
      tauto

theorem friendship_isSome (ps : List (String × Person)) (a b x : String) :
    (pLookup (updatePerson (updatePerson ps a (fun p => p.add_friend b)) b
        (fun p => p.add_friend a)) x).isSome = (pLookup ps x).isSome := by
  rw [friendship_lookup]
  cases pLookup ps x <;> rfl

theorem pLookup_append_isSome (ps qs : List (String × Person)) (x : String)
    (h : (pLookup ps x).isSome = true) :
    (pLookup (ps ++ qs) x).isSome = true := by
  rw [pLookup_append]
  rcases hx : pLookup ps x with _ | p
  · rw [hx] at h
    exact absurd h (by simp)
  · simp

theorem storeInv_update_msg (ps : List (String × Person)) (i : String)
    (f : Person → Person) (hf : ∀ p, (f p).connections = p.connections)
    (hsym : SymStore ⟨ps⟩) (hcp : ConnPresent ⟨ps⟩) :
    SymStore ⟨updatePerson ps i f⟩ ∧ ConnPresent ⟨updatePerson ps i f⟩ := by
  have hlk : ∀ x, pLookup (updatePerson ps i f) x =
      (pLookup ps x).map (fun p => if x = i then f p else p) := by
    intro x
    by_cases hx : x = i
    · subst hx
      rw [pLookup_updatePerson_same]
      cases pLookup ps x <;> simp
    · rw [pLookup_updatePerson_ne _ _ _ _ hx]
      cases pLookup ps x <;> simp [hx]
  have hconn : ∀ x p, (if x = i then f p else p).connections = p.connections := by
    intro x p
    by_cases h : x = i <;> simp [h, hf]
  constructor
  · intro a b pa pb ha hb
    rw [hlk] at ha hb
    rcases Option.map_eq_some'.mp ha with ⟨pa0, ha0, hpa⟩
    rcases Option.map_eq_some'.mp hb with ⟨pb0, hb0, hpb⟩
    subst hpa
    subst hpb
    rw [hconn, hconn]
    exact hsym a b pa0 pb0 ha0 hb0
  · intro a pa ha c hc
    rw [hlk] at ha
    rcases Option.map_eq_some'.mp ha with ⟨pa0, ha0, hpa⟩
    subst hpa
    rw [hconn] at hc
    have h := hcp a pa0 ha0 c hc
    rw [hlk c]
    rcases hx : pLookup ps c with _ | p
    · rw [hx] at h
      exact absurd h (by simp)
    · simp

theorem applyOp_preserves (net : CommunicationNetwork) (op : NetOp)
    (hsym : SymStore net) (hcp : ConnPresent net) :
    SymStore (applyOp net op) ∧ ConnPresent (applyOp net op) := by
  cases op with
  | addPerson i n =>
    by_cases hp : (pLookup net.people i).isSome
    · have heq : applyOp net (NetOp.addPerson i n) = net := by
        rw [applyOp, CommunicationNetwork.add_person, if_pos hp]
      rw [heq]
      exact ⟨hsym, hcp⟩
    · have hnone : pLookup net.people i = none := Option.not_isSome_iff_eq_none.mp hp
      have heq : applyOp net (NetOp.addPerson i n) =
          ⟨net.people ++ [(i, ⟨i, n, [], []⟩)]⟩ := by
        rw [applyOp, CommunicationNetwork.add_person, if_neg hp]
      rw [heq]
      have hsingle : ∀ x, pLookup [(i, (⟨i, n, [], []⟩ : Person))] x =
          if i = x then some ⟨i, n, [], []⟩ else none := by
        intro x
        rfl
      constructor
      · intro a b pa pb ha hb
        rw [pLookup_append] at ha hb
        rcases hA : pLookup net.people a with _ | pa0 <;> rw [hA] at ha
        · rw [hsingle] at ha
          by_cases hia : i = a
          · rw [if_pos hia] at ha
            injection ha with ha
            subst ha
            rcases hB : pLookup net.people b with _ | pb0 <;> rw [hB] at hb
            · rw [hsingle] at hb
              by_cases hib : i = b
              · rw [if_pos hib] at hb
                injection hb with hb
                subst hb
                simp
              · rw [if_neg hib] at hb
                exact absurd hb (by simp)
            · injection hb with hb
              subst hb
              simp only [Person.connections]
              constructor
              · intro hmem
                exact absurd hmem (List.not_mem_nil b)
              · intro hmem
                have h := hcp b pb0 hB a hmem
                rw [← hia, hnone] at h
                exact absurd h (by simp)
          · rw [if_neg hia] at ha
            exact absurd ha (by simp)
        · injection ha with ha
          subst ha
          rcases hB : pLookup net.people b with _ | pb0 <;> rw [hB] at hb
          · rw [hsingle] at hb
            by_cases hib : i = b
            · rw [if_pos hib] at hb
              injection hb with hb
              subst hb
              simp only [Person.connections]
              constructor
              · intro hmem
                have h := hcp a pa0 hA b hmem
                rw [← hib, hnone] at h
                exact absurd h (by simp)
              · intro hmem
                exact absurd hmem (List.not_mem_nil a)
            · rw [if_neg hib] at hb
              exact absurd hb (by simp)
          · injection hb with hb
            subst hb
            exact hsym a b pa0 pb0 hA hB
      · intro a pa ha c hc
        rw [pLookup_append] at ha
        rcases hA : pLookup net.people a with _ | pa0 <;> rw [hA] at ha
        · rw [hsingle] at ha
          by_cases hia : i = a
          · rw [if_pos hia] at ha
            injection ha with ha
            subst ha
            exact absurd hc (List.not_mem_nil c)
          · rw [if_neg hia] at ha
            exact absurd ha (by simp)
        · injection ha with ha
          subst ha
          exact pLookup_append_isSome _ _ _ (hcp a pa0 hA c hc)
  | addFriendship a b =>
    by_cases hab : (pLookup net.people a).isSome ∧ (pLookup net.people b).isSome
    · have heq : applyOp net (NetOp.addFriendship a b) =
          ⟨updatePerson (updatePerson net.people a (fun p => p.add_friend b)) b
            (fun p => p.add_friend a)⟩ := by
        rw [applyOp, CommunicationNetwork.add_friendship, if_pos hab]
      rw [heq]
      constructor
      · intro x y px' py' hx' hy'
        rw [friendship_lookup] at hx' hy'
        rcases Option.map_eq_some'.mp hx' with ⟨px, hx, hpx⟩
        rcases Option.map_eq_some'.mp hy' with ⟨py, hy, hpy⟩
        subst hpx
        subst hpy
        rw [mem_friendF, mem_friendF]
        have hbase := hsym x y px py hx hy
        tauto
      · intro x px' hx' c hc
        rw [friendship_lookup] at hx'
        rcases Option.map_eq_some'.mp hx' with ⟨px, hx, hpx⟩
        subst hpx
        rw [mem_friendF] at hc
        rw [friendship_isSome]
        rcases hc with hc | ⟨_, rfl⟩ | ⟨_, rfl⟩
        · exact hcp x px hx c hc
        · exact hab.2
        · exact hab.1
    · have heq : applyOp net (NetOp.addFriendship a b) = net := by
        rw [applyOp, CommunicationNetwork.add_friendship, if_neg hab]
      rw [heq]
      exact ⟨hsym, hcp⟩
  | sendMessage m =>
    by_cases hp : net.find_path m.sender_id m.receiver_id = []
    · have heq : applyOp net (NetOp.sendMessage m) = net := by
        rw [applyOp]
        simp [CommunicationNetwork.send_message, hp]
      rw [heq]
      exact ⟨hsym, hcp⟩
    · by_cases hr : (pLookup net.people m.receiver_id).isSome
      · have heq : applyOp net (NetOp.sendMessage m) =
            ⟨updatePerson net.people m.receiver_id (fun p =>
              p.add_message { m with
                route := net.find_path m.sender_id m.receiver_id })⟩ := by
          rw [applyOp]
          simp [CommunicationNetwork.send_message, hp, hr]
        rw [heq]
        rcases net with ⟨ps⟩
        exact storeInv_update_msg ps m.receiver_id _ (fun p => rfl) hsym hcp
      · have heq : applyOp net (NetOp.sendMessage m) = net := by
          rw [applyOp]
          simp [CommunicationNetwork.send_message, hp, hr]
        rw [heq]
        exact ⟨hsym, hcp⟩

theorem foldOps_inv (ops : List NetOp) :
    ∀ net : CommunicationNetwork, SymStore net → ConnPresent net →
      SymStore (ops.foldl applyOp net) ∧ ConnPresent (ops.foldl applyOp net) := by
  induction ops with
  | nil =>
    intro net h1 h2
    exact ⟨h1, h2⟩
  | cons op rest ih =>
    intro net h1 h2
    rw [List.foldl_cons]
    obtain ⟨h1a, h2a⟩ := applyOp_preserves net op h1 h2
    exact ih _ h1a h2a

/-- C5: after any sequence of `add_person`, `add_friendship` and
`send_message` operations on a network created empty, friendship is
symmetric: for every pair of persons in the store, each id is in the other's
connection set iff the converse holds. -/
theorem C5_friendship_symmetry (ops : List NetOp) (a b : String)
    (pa pb : Person)
    (ha : pLookup (runOps ops).people a = some pa)
    (hb : pLookup (runOps ops).people b = some pb) :
    b ∈ pa.connections ↔ a ∈ pb.connections := by
  have hempty1 : SymStore ⟨[]⟩ := by
    intro x y px py hx _
    exact absurd hx (by simp [pLookup])
  have hempty2 : ConnPresent ⟨[]⟩ := by
    intro x px hx
    exact absurd hx (by simp [pLookup])
  exact (foldOps_inv ops ⟨[]⟩ hempty1 hempty2).1 a b pa pb ha hb

/-- Witness for C5 on the sample-network operation sequence. -/
theorem C5_witness :
    "leona" ∈ (Person.mk "riddle" "Riddle" ["leona", "azul"] []).connections ↔
      "riddle" ∈ (Person.mk "leona" "Leona" ["riddle", "azul"] []).connections :=
  C5_friendship_symmetry
    [NetOp.addPerson "riddle" "Riddle", NetOp.addPerson "leona" "Leona",
     NetOp.addPerson "azul" "Azul", NetOp.addPerson "vil" "Vil",
     NetOp.addFriendship "riddle" "leona", NetOp.addFriendship "leona" "azul",
     NetOp.addFriendship "azul" "vil", NetOp.addFriendship "riddle" "azul"]
    "riddle" "leona" _ _ (by decide) (by decide)

/-! ### Number theory: `extended_gcd` and `mod_inverse` -/

theorem extended_gcd_correct (a : Nat) : ∀ b : Nat,
    (extended_gcd a b).1 = Nat.gcd a b ∧
      (a : Int) * (extended_gcd a b).2.1 + (b : Int) * (extended_gcd a b).2.2 =
        ((extended_gcd a b).1 : Int) := by
  induction a using Nat.strong_induction_on with
  | _ a ih =>
    intro b
    by_cases h : a = 0
    · subst h
      have heq : extended_gcd 0 b = (b, 0, 1) := by
        rw [extended_gcd]
        rfl
      rw [heq]
      constructor
      · exact (Nat.gcd_zero_left b).symm
      · simp
    · have heq : extended_gcd a b =
          ((extended_gcd (b % a) a).1,
            (extended_gcd (b % a) a).2.2 -
              ((b / a : Nat) : Int) * (extended_gcd (b % a) a).2.1,
            (extended_gcd (b % a) a).2.1) := by
        rw [extended_gcd]
        rw [dif_neg h]
      obtain ⟨hg, hbez⟩ := ih (b % a) (Nat.mod_lt b (Nat.pos_of_ne_zero h)) a
      rw [heq]
      constructor
      · rw [hg]
        exact (Nat.gcd_rec a b).symm
      · have hba : (b : Int) = (a : Int) * ((b / a : Nat) : Int) + ((b % a : Nat) : Int) := by
          exact_mod_cast (Nat.div_add_mod b a).symm
        linear_combination hbez + ((extended_gcd (b % a) a).2.1 : Int) * hba

theorem mod_inverse_error_iff (e phi : Nat) :
    mod_inverse e phi = Except.error "Modular inverse does not exist" ↔
      Nat.gcd e phi ≠ 1 := by
  rw [mod_inverse]
  have hg := (extended_gcd_correct e phi).1
  by_cases h : (extended_gcd e phi).1 ≠ 1
  · rw [if_pos h]
    rw [hg] at h
    exact iff_of_true rfl h
  · rw [if_neg h]
    push_neg at h
    rw [hg] at h
    constructor
    · intro hcontr
      exact absurd hcontr (by simp)
    · intro hcontr
      exact absurd h hcontr

theorem mod_inverse_ok (e phi r : Nat) (hphi : 0 < phi)
    (h : mod_inverse e phi = Except.ok r) :
    r < phi ∧ (e * r) % phi = 1 % phi := by
  rw [mod_inverse] at h
  by_cases hg : (extended_gcd e phi).1 ≠ 1
  · rw [if_pos hg] at h
    exact absurd h (by simp)
  · rw [if_neg hg] at h
    push_neg at hg
    injection h with h
    obtain ⟨_, hbez⟩ := extended_gcd_correct e phi
    rw [hg] at hbez
    have hphiZ : (0 : Int) < (phi : Int) := by exact_mod_cast hphi
    have hphine : (phi : Int) ≠ 0 := ne_of_gt hphiZ
    have hval : ((extended_gcd e phi).2.1 % (phi : Int) + (phi : Int)) % (phi : Int) =
        (extended_gcd e phi).2.1 % (phi : Int) := by
      rw [Int.add_emod, Int.emod_self, add_zero, Int.emod_emod_of_dvd _ dvd_rfl,
        Int.emod_emod_of_dvd _ dvd_rfl]
    rw [hval] at h
    have hnn : (0 : Int) ≤ (extended_gcd e phi).2.1 % (phi : Int) :=
      Int.emod_nonneg _ hphine
    have hlt : (extended_gcd e phi).2.1 % (phi : Int) < (phi : Int) :=
      Int.emod_lt_of_pos _ hphiZ
    have hrcast : ((r : Nat) : Int) = (extended_gcd e phi).2.1 % (phi : Int) := by
      rw [← h]
      exact Int.toNat_of_nonneg hnn
    constructor
    · rw [← h]
      exact (Int.toNat_lt hnn).mpr hlt
    · have hint : ((e : Int) * (r : Int)) % (phi : Int) = 1 % (phi : Int) := by
        rw [hrcast, Int.mul_emod, Int.emod_emod_of_dvd _ dvd_rfl, ← Int.mul_emod]
        have hex : (e : Int) * (extended_gcd e phi).2.1 =
            1 - (phi : Int) * (extended_gcd e phi).2.2 := by
          linear_combination hbez
        rw [hex, Int.sub_emod, Int.mul_emod_right, sub_zero,
          Int.emod_emod_of_dvd _ dvd_rfl]
      exact_mod_cast hint

/-- C8 (amended): `extended_gcd(a, b)` returns `(g, x, y)` with `g = gcd(a, b)`
and `a*x + b*y = g`, and the base case `a == 0` gives `(b, 0, 1)`; for
`phi > 0`, `mod_inverse(e, phi)` raises `ValueError` iff `gcd(e, phi) != 1`,
and otherwise returns `r` in `[0, phi)` with `(e*r) mod phi == 1 mod phi`
(for `phi > 1` that right-hand side is `1`; at `phi = 1` the result is `0`). -/
theorem C8_extended_gcd_mod_inverse :
    (∀ b : Nat, extended_gcd 0 b = (b, 0, 1)) ∧
    (∀ a b : Nat, (extended_gcd a b).1 = Nat.gcd a b ∧
      (a : Int) * (extended_gcd a b).2.1 + (b : Int) * (extended_gcd a b).2.2 =
        ((extended_gcd a b).1 : Int)) ∧
    (∀ e phi : Nat, 0 < phi →
      (mod_inverse e phi = Except.error "Modular inverse does not exist" ↔
        Nat.gcd e phi ≠ 1) ∧
      ∀ r : Nat, mod_inverse e phi = Except.ok r →
        r < phi ∧ (e * r) % phi = 1 % phi) := by
  refine ⟨?_, ?_, ?_⟩
  · intro b
    rw [extended_gcd]
    rfl
  · intro a b
    exact extended_gcd_correct a b
  · intro e phi hphi
    exact ⟨mod_inverse_error_iff e phi, fun r h => mod_inverse_ok e phi r hphi h⟩

/-- C8, counterexample to the claim as frozen: at `phi = 1` (which satisfies
`phi > 0` and `gcd(e, 1) = 1`) `mod_inverse` returns `0`, but
`(e * 0) mod 1 = 0 ≠ 1`, so "returns r with (e * r) mod phi == 1" fails. -/
theorem C8_counterexample :
    mod_inverse 3 1 = Except.ok 0 ∧ Nat.gcd 3 1 = 1 ∧ (3 * 0) % 1 ≠ 1 := by
  refine ⟨?_, by decide, by decide⟩
  simp [mod_inverse, extended_gcd]

/-- Witness for C8's amended theorem at concrete inputs. -/
theorem C8_witness :
    extended_gcd 0 5 = (5, 0, 1) ∧
      (extended_gcd 6 4).1 = Nat.gcd 6 4 ∧
      (5 < 7 ∧ (3 * 5) % 7 = 1 % 7) :=
  ⟨C8_extended_gcd_mod_inverse.1 5,
   (C8_extended_gcd_mod_inverse.2.1 6 4).1,
   (C8_extended_gcd_mod_inverse.2.2 3 7 (by norm_num)).2 5
     (by simp [mod_inverse, extended_gcd])⟩

/-! ### Number theory: textbook RSA correctness -/

theorem rsa_pow_mod (p q e d : Nat) (hp : Nat.Prime p) (hq : Nat.Prime q)
    (hne : p ≠ q) (hphi : 1 < (p - 1) * (q - 1))
    (hed : (e * d) % ((p - 1) * (q - 1)) = 1 % ((p - 1) * (q - 1))) :
    ∀ m : Nat, m ^ (e * d) % (p * q) = m % (p * q) := by
  intro m
  have hed1 : (e * d) % ((p - 1) * (q - 1)) = 1 := by
    rw [hed, Nat.mod_eq_of_lt hphi]
  have hdecomp : e * d = (p - 1) * (q - 1) * (e * d / ((p - 1) * (q - 1))) + 1 := by
    conv_lhs => rw [← Nat.div_add_mod (e * d) ((p - 1) * (q - 1))]
    rw [hed1]
  have hco : Nat.Coprime p q := (Nat.coprime_primes hp hq).mpr hne
  have key : ∀ r : Nat, Nat.Prime r → (r - 1) ∣ (p - 1) * (q - 1) →
      m ^ (e * d) ≡ m [MOD r] := by
    intro r hr hrdvd
    haveI : Fact (Nat.Prime r) := ⟨hr⟩
    have hzmod : ((m : ZMod r)) ^ (e * d) = (m : ZMod r) := by
      by_cases hx : (m : ZMod r) = 0
      · rw [hx]
        exact zero_pow (by omega)
      · rcases hrdvd with ⟨k, hk⟩
        rw [hdecomp, pow_add, pow_one, hk]
        have hone : (m : ZMod r) ^ ((r - 1) * k * (e * d / ((r - 1) * k))) = 1 := by
          rw [mul_assoc, pow_mul, ZMod.pow_card_sub_one_eq_one hx, one_pow]
        rw [hone, one_mul]
    have hcast : ((m ^ (e * d) : Nat) : ZMod r) = ((m : Nat) : ZMod r) := by
      push_cast
      exact hzmod
    exact (ZMod.natCast_eq_natCast_iff _ _ _).mp hcast
  have hmodp : m ^ (e * d) ≡ m [MOD p] :=
    key p hp ⟨q - 1, rfl⟩
  have hmodq : m ^ (e * d) ≡ m [MOD q] :=
    key q hq ⟨p - 1, mul_comm (p - 1) (q - 1)⟩
  exact (Nat.modEq_and_modEq_iff_modEq_mul hco).mp ⟨hmodp, hmodq⟩

/-- C6: for every keypair `((n, e), (n, d))` that `generate_rsa_keys` can
return — `n = p*q` for distinct primes `p, q` sampled from `[100, 500]`,
`e` coprime to `(p-1)*(q-1)` and `d` its modular inverse as computed by
`mod_inverse` — and every integer `m` in `[0, n)` that is not a multiple of
`p` or `q`, `(m^e)^d mod n == m`. -/
theorem C6_rsa_key_validity (p q e d : Nat) (hp : Nat.Prime p) (hq : Nat.Prime q)
    (hpq : p ≠ q) (hpl : 100 ≤ p) (hpu : p ≤ 500) (hql : 100 ≤ q) (hqu : q ≤ 500)
    (hco : Nat.gcd e ((p - 1) * (q - 1)) = 1)
    (hd : mod_inverse e ((p - 1) * (q - 1)) = Except.ok d) :
    ∀ m : Nat, m < p * q → ¬ (p ∣ m) → ¬ (q ∣ m) →
      (m ^ e) ^ d % (p * q) = m := by
  intro m hm hpm hqm
  have hphi : 1 < (p - 1) * (q - 1) := by
    have h99 : 99 * 99 ≤ (p - 1) * (q - 1) :=
      Nat.mul_le_mul (by omega) (by omega)
    omega
  have hmod := mod_inverse_ok e ((p - 1) * (q - 1)) d (by omega) hd
  rw [← pow_mul]
  rw [rsa_pow_mod p q e d hp hq hpq hphi hmod.2 m]
  exact Nat.mod_eq_of_lt hm

/-- Witness for C6: the keypair `n = 101*103`, `e = 7`, `d = 8743` and the
message `m = 2`. -/
theorem C6_witness : (2 ^ 7) ^ 8743 % (101 * 103) = 2 :=
  C6_rsa_key_validity 101 103 7 8743 (by norm_num) (by norm_num) (by decide)
    (by decide) (by decide) (by decide) (by decide) (by decide)
    (by simp [mod_inverse, extended_gcd]) 2 (by decide) (by decide) (by decide)

/-! ### Transport encoding: decimal rendering and the JSON integer list -/

theorem digitChar_props : ∀ i, i < 10 →
    (Nat.digitChar i).isDigit = true ∧ (Nat.digitChar i).toNat = 48 + i := by
  decide

theorem natToCharsAux_go (n : Nat) : ∀ (fuel : Nat) (acc : List Char),
    n < fuel → natToCharsAux fuel n acc = natToChars n ++ acc := by
  induction n using Nat.strong_induction_on with
  | _ n ih =>
    intro fuel acc hfuel
    match fuel with
    | fuel + 1 =>
      by_cases h10 : n < 10
      · simp only [natToCharsAux, if_pos h10, natToChars]
        rfl
      · have hdiv : n / 10 < n := Nat.div_lt_self (by omega) (by omega)
        simp only [natToCharsAux, if_neg h10]
        rw [ih (n / 10) hdiv fuel (Nat.digitChar (n % 10) :: acc) (by omega)]
        conv_rhs =>
          rw [natToChars]
          simp only [natToCharsAux, if_neg h10]
        rw [ih (n / 10) hdiv n [Nat.digitChar (n % 10)] (by omega)]
        rw [List.append_assoc]
        rfl

theorem natToChars_eq (n : Nat) :
    (n < 10 → natToChars n = [Nat.digitChar (n % 10)]) ∧
    (¬ n < 10 → natToChars n = natToChars (n / 10) ++ [Nat.digitChar (n % 10)]) := by
  constructor
  · intro h10
    rw [natToChars]
    simp only [natToCharsAux, if_pos h10]
  · intro h10
    rw [natToChars]
    simp only [natToCharsAux, if_neg h10]
    exact natToCharsAux_go (n / 10) n [Nat.digitChar (n % 10)]
      (by omega)

theorem natToChars_mem (n : Nat) :
    ∀ c ∈ natToChars n, ∃ i, i < 10 ∧ c = Nat.digitChar i := by
  induction n using Nat.strong_induction_on with
  | _ n ih =>
    intro c hc
    by_cases h10 : n < 10
    · rw [(natToChars_eq n).1 h10] at hc
      simp at hc
      exact ⟨n % 10, by omega, hc⟩
    · rw [(natToChars_eq n).2 h10] at hc
      rcases List.mem_append.mp hc with hc | hc
      · exact ih (n / 10) (Nat.div_lt_self (by omega) (by omega)) c hc
      · simp at hc
        exact ⟨n % 10, by omega, hc⟩

theorem natToChars_ne_nil (n : Nat) : natToChars n ≠ [] := by
  by_cases h10 : n < 10
  · rw [(natToChars_eq n).1 h10]
    simp
  · rw [(natToChars_eq n).2 h10]
    simp

theorem valOfDigits_natToChars (n : Nat) : valOfDigits (natToChars n) = n := by
  induction n using Nat.strong_induction_on with
  | _ n ih =>
    by_cases h10 : n < 10
    · rw [(natToChars_eq n).1 h10, valOfDigits]
      simp only [List.foldl_cons, List.foldl_nil]
      rw [(digitChar_props (n % 10) (by omega)).2]
      omega
    · rw [(natToChars_eq n).2 h10, valOfDigits, List.foldl_append]
      have hrec := ih (n / 10) (Nat.div_lt_self (by omega) (by omega))
      rw [valOfDigits] at hrec
      rw [hrec]
      simp only [List.foldl_cons, List.foldl_nil]
      rw [(digitChar_props (n % 10) (by omega)).2]
      omega

theorem takeWhile_all_append (p : Char → Bool) (ds : List Char) (r : Char)
    (rt : List Char) (hall : ∀ c ∈ ds, p c = true) (hr : p r = false) :
    (ds ++ r :: rt).takeWhile p = ds ∧ (ds ++ r :: rt).dropWhile p = r :: rt := by
  induction ds with
  | nil =>
    simp only [List.nil_append]
    constructor
    · rw [List.takeWhile_cons, hr]
      rfl
    · rw [List.dropWhile_cons, hr]
      rfl
  | cons d ds ih =>
    have hd : p d = true := hall d (List.mem_cons_self _ _)
    obtain ⟨ih1, ih2⟩ := ih (fun c hc => hall c (List.mem_cons_of_mem _ hc))
    constructor
    · rw [List.cons_append, List.takeWhile_cons, hd, ih1]
      rfl
    · rw [List.cons_append, List.dropWhile_cons, hd, ih2]
      rfl

theorem jsonItemsChars_ne_nil (n : Nat) (l : List Nat) :
    jsonItemsChars (n :: l) ≠ [] := by
  cases l with
  | nil =>
    rw [jsonItemsChars]
    exact natToChars_ne_nil n
  | cons m l2 =>
    show natToChars n ++ ',' :: ' ' :: jsonItemsChars (m :: l2) ≠ []
    intro h
    rcases List.append_eq_nil.mp h with ⟨h1, _⟩
    exact natToChars_ne_nil n h1

theorem jsonParse_items (l : List Nat) (hl : l ≠ []) : ∀ fuel : Nat,
    (jsonItemsChars l ++ [']']).length ≤ fuel →
    jsonParseItemsAux fuel (jsonItemsChars l ++ [']']) = some l := by
  induction l with
  | nil => exact absurd rfl hl
  | cons n l2 ih =>
    intro fuel hfuel
    have hdigits : ∀ c ∈ natToChars n, c.isDigit = true := by
      intro c hc
      rcases natToChars_mem n c hc with ⟨i, hi, rfl⟩
      exact (digitChar_props i hi).1
    match fuel with
    | 0 =>
      exfalso
      have := jsonItemsChars_ne_nil n l2
      have hpos : 0 < (jsonItemsChars (n :: l2) ++ [']']).length := by
        simp
      omega
    | fuel + 1 =>
      cases l2 with
      | nil =>
        have hsplit := takeWhile_all_append Char.isDigit (natToChars n) ']' []
          hdigits (by decide)
        simp only [jsonItemsChars] at hfuel ⊢
        simp only [jsonParseItemsAux, hsplit.1, hsplit.2]
        rw [if_neg (natToChars_ne_nil n)]
        rw [valOfDigits_natToChars]
      | cons m l3 =>
        have hshape : jsonItemsChars (n :: m :: l3) ++ [']'] =
            natToChars n ++ ',' :: ' ' :: (jsonItemsChars (m :: l3) ++ [']']) := by
          show (natToChars n ++ ',' :: ' ' :: jsonItemsChars (m :: l3)) ++ [']'] = _
          simp
        have hsplit := takeWhile_all_append Char.isDigit (natToChars n) ','
          (' ' :: (jsonItemsChars (m :: l3) ++ [']'])) hdigits (by decide)
        rw [hshape] at hfuel ⊢
        simp only [jsonParseItemsAux, hsplit.1, hsplit.2]
        rw [if_neg (natToChars_ne_nil n)]
        have hlen : (jsonItemsChars (m :: l3) ++ [']']).length ≤ fuel := by
          have h1 : 1 ≤ (natToChars n).length := by
            have := natToChars_ne_nil n
            cases h : natToChars n with
            | nil => exact absurd h this
            | cons a b => simp
          simp only [List.length_append, List.length_cons, List.length_nil] at hfuel
          simp only [List.length_append, List.length_cons, List.length_nil]
          omega
        rw [ih (List.cons_ne_nil _ _) fuel hlen]
        rw [valOfDigits_natToChars]
        rfl

theorem jsonParse_dumps (l : List Nat) :
    jsonParseNatList (jsonDumpsNatList l) = some l := by
  cases l with
  | nil => rfl
  | cons n l2 =>
    rw [jsonDumpsNatList, jsonParseNatList]
    have hne : ¬ (jsonItemsChars (n :: l2) ++ [']'] = [']']) := by
      intro h
      have h2 : (jsonItemsChars (n :: l2) ++ [']']).length = 1 :=
        congrArg List.length h
      have h3 := jsonItemsChars_ne_nil n l2
      have h4 : 0 < (jsonItemsChars (n :: l2)).length := List.length_pos.mpr h3
      simp only [List.length_append, List.length_cons, List.length_nil] at h2
      omega
    simp only []
    rw [if_neg hne]
    exact jsonParse_items (n :: l2) (List.cons_ne_nil _ _) _ (le_refl _)

/-! ### Transport encoding: UTF-8 on ASCII and base64 -/

theorem toNat_ofNat_lt (b : Nat) (h : b < 128) : (Char.ofNat b).toNat = b := by
  have hv : Nat.isValidChar b := Or.inl (by omega)
  rw [Char.ofNat, dif_pos hv]
  simp [Char.ofNatAux, Char.toNat, UInt32.toNat]

theorem charOfCode_toNat (c : Char) : charOfCode c.toNat = some c := by
  rw [charOfCode, if_pos (show Nat.isValidChar c.toNat from c.valid),
    Char.ofNat_toNat]

theorem utf8EncodeChar_ascii (c : Char) (h : c.toNat < 128) :
    utf8EncodeChar c = [c.toNat] := by
  simp only [utf8EncodeChar]
  rw [if_pos h]

theorem pyEncodeUTF8_ascii (cs : List Char) (h : ∀ c ∈ cs, c.toNat < 128) :
    pyEncodeUTF8 (String.mk cs) = cs.map Char.toNat := by
  induction cs with
  | nil => rfl
  | cons c rest ih =>
    show (utf8EncodeChar c :: rest.map utf8EncodeChar).flatten = _
    rw [List.flatten_cons, utf8EncodeChar_ascii c (h c (List.mem_cons_self _ _))]
    have := ih (fun x hx => h x (List.mem_cons_of_mem _ hx))
    rw [pyEncodeUTF8] at this
    simp only [List.map_cons]
    rw [← this]
    rfl

theorem utf8DecodeAux_ascii (bs : List Nat) : ∀ fuel : Nat, bs.length ≤ fuel →
    (∀ b ∈ bs, b < 128) → utf8DecodeAux fuel bs = some (bs.map Char.ofNat) := by
  induction bs with
  | nil =>
    intro fuel _ _
    cases fuel <;> rfl
  | cons b rest ih =>
    intro fuel hfuel h
    match fuel with
    | fuel + 1 =>
      simp only [utf8DecodeAux]
      rw [if_pos (h b (List.mem_cons_self _ _))]
      rw [ih fuel (by simp at hfuel; omega) (fun x hx => h x (List.mem_cons_of_mem _ hx))]
      rfl

theorem utf8Decode_ascii (bs : List Nat) (h : ∀ b ∈ bs, b < 128) :
    utf8Decode bs = some (bs.map Char.ofNat) :=
  utf8DecodeAux_ascii bs bs.length (le_refl _) h

theorem b64Val_b64Byte : ∀ i, i < 64 → b64Val (b64Byte i) = some i := by
  decide

theorem b64Byte_lt : ∀ i, i < 64 → b64Byte i < 128 := by
  decide

theorem b64Byte_ne_61 : ∀ i, i < 64 → b64Byte i ≠ 61 := by
  decide

theorem b64EncodeBytes_ascii (bs : List Nat) (h : ∀ b ∈ bs, b < 256) :
    ∀ x ∈ b64EncodeBytes bs, x < 128 := by
  induction bs using b64EncodeBytes.induct with
  | case1 =>
    intro x hx
    exact absurd hx (List.not_mem_nil x)
  | case2 b1 =>
    intro x hx
    have h1 : b1 < 256 := h b1 (by simp)
    simp only [b64EncodeBytes, List.mem_cons, List.not_mem_nil, or_false] at hx
    rcases hx with rfl | rfl | rfl | rfl
    · exact b64Byte_lt _ (by omega)
    · exact b64Byte_lt _ (by omega)
    · omega
    · omega
  | case3 b1 b2 =>
    intro x hx
    have h1 : b1 < 256 := h b1 (by simp)
    have h2 : b2 < 256 := h b2 (by simp)
    simp only [b64EncodeBytes, List.mem_cons, List.not_mem_nil, or_false] at hx
    rcases hx with rfl | rfl | rfl | rfl
    · exact b64Byte_lt _ (by omega)
    · exact b64Byte_lt _ (by omega)
    · exact b64Byte_lt _ (by omega)
    · omega
  | case4 b1 b2 b3 rest ih =>
    intro x hx
    have h1 : b1 < 256 := h b1 (by simp)
    have h2 : b2 < 256 := h b2 (by simp)
    have h3 : b3 < 256 := h b3 (by simp)
    simp only [b64EncodeBytes, List.mem_cons] at hx
    rcases hx with rfl | rfl | rfl | rfl | hx
    · exact b64Byte_lt _ (by omega)
    · exact b64Byte_lt _ (by omega)
    · exact b64Byte_lt _ (by omega)
    · exact b64Byte_lt _ (by omega)
    · exact ih (fun y hy => h y (by simp [hy])) x hx

theorem b64_roundtrip : ∀ (k : Nat) (bs : List Nat), bs.length ≤ k →
    (∀ b ∈ bs, b < 256) → b64DecodeBytes (b64EncodeBytes bs) = some bs := by
  intro k
  induction k with
  | zero =>
    intro bs hlen _
    match bs with
    | [] => rfl
    | b :: rest => exact absurd hlen (by simp)
  | succ k ih =>
    intro bs hlen h
    match bs with
    | [] => rfl
    | [b1] =>
      have h1 : b1 < 256 := h b1 (by simp)
      have hv1 := b64Val_b64Byte (b1 / 4) (by omega)
      have hv2 := b64Val_b64Byte (b1 % 4 * 16) (by omega)
      have e1 : b1 / 4 * 4 + b1 % 4 * 16 / 16 = b1 := by omega
      simp [b64EncodeBytes, b64DecodeBytes, hv1, hv2, e1]
      omega
    | [b1, b2] =>
      have h1 : b1 < 256 := h b1 (by simp)
      have h2 : b2 < 256 := h b2 (by simp)
      have hv1 := b64Val_b64Byte (b1 / 4) (by omega)
      have hv2 := b64Val_b64Byte (b1 % 4 * 16 + b2 / 16) (by omega)
      have hv3 := b64Val_b64Byte (b2 % 16 * 4) (by omega)
      have hn3 := b64Byte_ne_61 (b2 % 16 * 4) (by omega)
      have e1 : b1 / 4 * 4 + (b1 % 4 * 16 + b2 / 16) / 16 = b1 := by omega
      have e2 : (b1 % 4 * 16 + b2 / 16) % 16 * 16 + b2 % 16 * 4 / 4 = b2 := by omega
      simp [b64EncodeBytes, b64DecodeBytes, hv1, hv2, hv3, hn3, e1, e2]
      omega
    | b1 :: b2 :: b3 :: rest =>
      have h1 : b1 < 256 := h b1 (by simp)
      have h2 : b2 < 256 := h b2 (by simp)
      have h3 : b3 < 256 := h b3 (by simp)
      have hv1 := b64Val_b64Byte (b1 / 4) (by omega)
      have hv2 := b64Val_b64Byte (b1 % 4 * 16 + b2 / 16) (by omega)
      have hv3 := b64Val_b64Byte (b2 % 16 * 4 + b3 / 64) (by omega)
      have hv4 := b64Val_b64Byte (b3 % 64) (by omega)
      have hn3 := b64Byte_ne_61 (b2 % 16 * 4 + b3 / 64) (by omega)
      have hn4 := b64Byte_ne_61 (b3 % 64) (by omega)
      have hrec := ih rest (by simp at hlen ⊢; omega) (fun y hy => h y (by simp [hy]))
      have e1 : b1 / 4 * 4 + (b1 % 4 * 16 + b2 / 16) / 16 = b1 := by omega
      have e2 : (b1 % 4 * 16 + b2 / 16) % 16 * 16 + (b2 % 16 * 4 + b3 / 64) / 4 = b2 := by
        omega
      have e3 : (b2 % 16 * 4 + b3 / 64) % 4 * 64 + b3 % 64 = b3 := by omega
      simp [b64EncodeBytes, b64DecodeBytes, hv1, hv2, hv3, hv4, hn3, hn4, hrec, e1, e2, e3]

/-! ### ASCII character bounds for the JSON rendering -/

theorem jsonItems_ascii (l : List Nat) :
    ∀ c ∈ jsonItemsChars l, c.toNat < 128 := by
  induction l with
  | nil =>
    intro c hc
    exact absurd hc (List.not_mem_nil c)
  | cons n l2 ih =>
    intro c hc
    have hdig : ∀ x ∈ natToChars n, x.toNat < 128 := by
      intro x hx
      rcases natToChars_mem n x hx with ⟨i, hi, rfl⟩
      rw [(digitChar_props i hi).2]
      omega
    cases l2 with
    | nil => exact hdig c hc
    | cons m l3 =>
      have hc2 : c ∈ natToChars n ++ ',' :: ' ' :: jsonItemsChars (m :: l3) := hc
      rcases List.mem_append.mp hc2 with hc3 | hc3
      · exact hdig c hc3
      · rcases List.mem_cons.mp hc3 with rfl | hc4
        · decide
        · rcases List.mem_cons.mp hc4 with rfl | hc5
          · decide
          · exact ih c hc5

theorem jsonDumps_ascii (l : List Nat) :
    ∀ c ∈ (jsonDumpsNatList l).data, c.toNat < 128 := by
  intro c hc
  have hc2 : c ∈ '[' :: (jsonItemsChars l ++ [']']) := hc
  rcases List.mem_cons.mp hc2 with rfl | hc3
  · decide
  · rcases List.mem_append.mp hc3 with hc4 | hc4
    · exact jsonItems_ascii l c hc4
    · simp at hc4
      subst hc4
      decide

/-! ### The per-character encryption loop -/

theorem encryptInts_ok (n e : Nat) : ∀ l : List Nat, (∀ c ∈ l, c < n) →
    encryptInts n e l = Except.ok (l.map (fun c => c ^ e % n)) := by
  intro l
  induction l with
  | nil =>
    intro _
    rfl
  | cons c rest ih =>
    intro h
    rw [encryptInts, if_neg (by simp [Nat.not_le]; exact h c (List.mem_cons_self _ _))]
    rw [ih (fun x hx => h x (List.mem_cons_of_mem _ hx))]
    rfl

theorem encryptInts_error_iff (n e : Nat) : ∀ l : List Nat,
    (∃ msg, encryptInts n e l = Except.error msg) ↔ ∃ c ∈ l, n ≤ c := by
  intro l
  induction l with
  | nil =>
    constructor
    · intro ⟨msg, hmsg⟩
      exact absurd hmsg (by simp [encryptInts])
    · intro ⟨c, hc, _⟩
      exact absurd hc (List.not_mem_nil c)
  | cons c rest ih =>
    by_cases hc : c ≥ n
    · rw [encryptInts, if_pos hc]
      exact iff_of_true ⟨_, rfl⟩ ⟨c, List.mem_cons_self _ _, hc⟩
    · rw [encryptInts, if_neg hc]
      constructor
      · intro ⟨msg, hmsg⟩
        rcases herr : encryptInts n e rest with msg2 | val
        · rcases ih.mp ⟨msg2, herr⟩ with ⟨x, hx, hnx⟩
          exact ⟨x, List.mem_cons_of_mem _ hx, hnx⟩
        · rw [herr] at hmsg
          exact absurd hmsg (by simp [Except.map])
      · intro ⟨x, hx, hnx⟩
        rcases List.mem_cons.mp hx with rfl | hx2
        · exact absurd hnx hc
        · rcases ih.mpr ⟨x, hx2, hnx⟩ with ⟨msg, hmsg⟩
          rw [hmsg]
          exact ⟨msg, rfl⟩

/-! ### Assembling `encrypt_message` and `decrypt_message` -/

theorem string_mk_data (s : String) : String.mk s.data = s := by
  obtain ⟨d⟩ := s
  rfl

theorem pyEncode_jsonDumps (l : List Nat) :
    pyEncodeUTF8 (jsonDumpsNatList l) =
      (jsonDumpsNatList l).data.map Char.toNat := by
  conv_lhs => rw [← string_mk_data (jsonDumpsNatList l)]
  exact pyEncodeUTF8_ascii _ (jsonDumps_ascii l)

theorem jsonBytes_lt (l : List Nat) :
    ∀ b ∈ pyEncodeUTF8 (jsonDumpsNatList l), b < 256 := by
  rw [pyEncode_jsonDumps]
  intro b hb
  rcases List.mem_map.mp hb with ⟨c, hc, rfl⟩
  have := jsonDumps_ascii l c hc
  omega

theorem mapM_charOfCode (cs : List Char) :
    (cs.map Char.toNat).mapM charOfCode = some cs := by
  induction cs with
  | nil => rfl
  | cons c rest ih =>
    simp only [List.map_cons, List.mapM_cons, charOfCode_toNat, ih]
    rfl

theorem encrypt_message_ok (plaintext : String) (n e : Nat)
    (h : ∀ c ∈ plaintext.data, c.toNat < n) :
    RSAMessaging.encrypt_message plaintext (n, e) =
      Except.ok (String.mk ((b64EncodeBytes (pyEncodeUTF8 (jsonDumpsNatList
          (plaintext.data.map (fun c => c.toNat ^ e % n))))).map Char.ofNat),
        [("encryption", MetaVal.str "rsa"),
         ("original_length", MetaVal.num plaintext.length),
         ("encrypted_length", MetaVal.num (String.mk ((b64EncodeBytes
           (pyEncodeUTF8 (jsonDumpsNatList (plaintext.data.map
             (fun c => c.toNat ^ e % n))))).map Char.ofNat)).length),
         ("public_key_n", MetaVal.num n),
         ("public_key_e", MetaVal.num e),
         ("character_count", MetaVal.num (plaintext.data.map Char.toNat).length)]) := by
  have hEnc : encryptInts n e (plaintext.data.map Char.toNat) =
      Except.ok (plaintext.data.map (fun c => c.toNat ^ e % n)) := by
    rw [encryptInts_ok n e _ (by
      intro x hx
      rcases List.mem_map.mp hx with ⟨c, hc, rfl⟩
      exact h c hc)]
    rw [List.map_map]
    rfl
  have hb64ascii := b64EncodeBytes_ascii _
    (jsonBytes_lt (plaintext.data.map (fun c => c.toNat ^ e % n)))
  have hDec := utf8Decode_ascii _ hb64ascii
  simp only [RSAMessaging.encrypt_message, hEnc, hDec]

/-- C7: `encrypt_message(plaintext, (n, e))` raises `ValueError` iff some
character of the plaintext has code point `≥ n`; when it does not raise, it
returns the per-character ciphertexts `code_i ^ e mod n`, computed
independently per character, serialized to text (`json.dumps`, UTF-8,
base64), plus the metadata dict. -/
theorem C7_encrypt_range (plaintext : String) (n e : Nat) :
    ((∃ msg, RSAMessaging.encrypt_message plaintext (n, e) = Except.error msg) ↔
      ∃ c ∈ plaintext.data, n ≤ c.toNat) ∧
    ((∀ c ∈ plaintext.data, c.toNat < n) →
      ∃ md, RSAMessaging.encrypt_message plaintext (n, e) =
        Except.ok (String.mk ((b64EncodeBytes (pyEncodeUTF8 (jsonDumpsNatList
          (plaintext.data.map (fun c => c.toNat ^ e % n))))).map Char.ofNat), md)) := by
  constructor
  · constructor
    · intro ⟨msg, hmsg⟩
      by_contra hno
      push_neg at hno
      rw [encrypt_message_ok plaintext n e (by
        intro c hc
        exact Nat.lt_of_not_le (fun hle => by
          have := hno c hc
          omega))] at hmsg
      exact Except.noConfusion hmsg
    · intro ⟨c, hc, hnc⟩
      have hbig : ∃ x ∈ plaintext.data.map Char.toNat, n ≤ x :=
        ⟨c.toNat, List.mem_map.mpr ⟨c, hc, rfl⟩, hnc⟩
      rcases (encryptInts_error_iff n e _).mpr hbig with ⟨msg, hmsg⟩
      refine ⟨msg, ?_⟩
      simp only [RSAMessaging.encrypt_message, hmsg]
  · intro h
    exact ⟨_, encrypt_message_ok plaintext n e h⟩

/-- Witness for C7 at a concrete plaintext and key. -/
theorem C7_witness :
    ((∃ msg, RSAMessaging.encrypt_message "Hi" (10403, 7) = Except.error msg) ↔
      ∃ c ∈ "Hi".data, 10403 ≤ c.toNat) ∧
    (∃ md, RSAMessaging.encrypt_message "Hi" (10403, 7) =
      Except.ok (String.mk ((b64EncodeBytes (pyEncodeUTF8 (jsonDumpsNatList
        ("Hi".data.map (fun c => c.toNat ^ 7 % 10403))))).map Char.ofNat), md)) :=
  ⟨(C7_encrypt_range "Hi" 10403 7).1,
   (C7_encrypt_range "Hi" 10403 7).2 (by decide)⟩

/-- C4: for every keypair `((n, e), (n, d))` that `generate_rsa_keys` can
return (n = p*q for distinct primes p, q from [100, 500], e coprime to
`(p-1)*(q-1)`, d its modular inverse) and every plaintext string all of
whose character code points are strictly below `n`,
`decrypt_message(encrypt_message(plaintext, (n,e)).ciphertext, (n,d))`
returns the plaintext. -/
theorem C4_rsa_roundtrip (p q e d : Nat) (hp : Nat.Prime p) (hq : Nat.Prime q)
    (hpq : p ≠ q) (hpl : 100 ≤ p) (hpu : p ≤ 500) (hql : 100 ≤ q) (hqu : q ≤ 500)
    (hco : Nat.gcd e ((p - 1) * (q - 1)) = 1)
    (hd : mod_inverse e ((p - 1) * (q - 1)) = Except.ok d)
    (plaintext : String) (hsmall : ∀ c ∈ plaintext.data, c.toNat < p * q) :
    ∃ ct md, RSAMessaging.encrypt_message plaintext (p * q, e) = Except.ok (ct, md) ∧
      RSAMessaging.decrypt_message ct (p * q, d) = Except.ok plaintext := by
  have hphi : 1 < (p - 1) * (q - 1) := by
    have h99 : 99 * 99 ≤ (p - 1) * (q - 1) :=
      Nat.mul_le_mul (by omega) (by omega)
    omega
  have hmod := mod_inverse_ok e ((p - 1) * (q - 1)) d (by omega) hd
  refine ⟨_, _, encrypt_message_ok plaintext (p * q) e hsmall, ?_⟩
  have hb64ascii := b64EncodeBytes_ascii _
    (jsonBytes_lt (plaintext.data.map (fun c => c.toNat ^ e % (p * q))))
  -- the UTF-8 bytes of the ciphertext string are the base64 bytes again
  have hct_encode : pyEncodeUTF8 (String.mk ((b64EncodeBytes (pyEncodeUTF8
      (jsonDumpsNatList (plaintext.data.map
        (fun c => c.toNat ^ e % (p * q)))))).map Char.ofNat)) =
      b64EncodeBytes (pyEncodeUTF8 (jsonDumpsNatList (plaintext.data.map
        (fun c => c.toNat ^ e % (p * q))))) := by
    rw [pyEncodeUTF8_ascii _ (by
      intro c hc
      rcases List.mem_map.mp hc with ⟨b, hb, rfl⟩
      rw [toNat_ofNat_lt b (hb64ascii b hb)]
      exact hb64ascii b hb)]
    rw [List.map_map]
    refine Eq.trans (List.map_congr_left ?_) (List.map_id _)
    intro b hb
    exact toNat_ofNat_lt b (hb64ascii b hb)
  -- base64 decodes back to the UTF-8 bytes of the JSON string
  have hdecode_b64 : b64DecodeBytes (b64EncodeBytes (pyEncodeUTF8
      (jsonDumpsNatList (plaintext.data.map (fun c => c.toNat ^ e % (p * q)))))) =
      some (pyEncodeUTF8 (jsonDumpsNatList (plaintext.data.map
        (fun c => c.toNat ^ e % (p * q))))) :=
    b64_roundtrip _ _ (le_refl _)
      (jsonBytes_lt (plaintext.data.map (fun c => c.toNat ^ e % (p * q))))
  -- UTF-8 decodes back to the JSON characters
  have hutf8 : utf8Decode (pyEncodeUTF8 (jsonDumpsNatList (plaintext.data.map
      (fun c => c.toNat ^ e % (p * q))))) =
      some (jsonDumpsNatList (plaintext.data.map
        (fun c => c.toNat ^ e % (p * q)))).data := by
    rw [pyEncode_jsonDumps]
    rw [utf8Decode_ascii _ (by
      intro b hb
      rcases List.mem_map.mp hb with ⟨c, hc, rfl⟩
      exact jsonDumps_ascii _ c hc)]
    rw [List.map_map]
    congr 1
    refine Eq.trans (List.map_congr_left ?_) (List.map_id _)
    intro c _
    exact Char.ofNat_toNat c
  -- the JSON parses back to the integer list
  have hparse : jsonParseNatList (String.mk (jsonDumpsNatList (plaintext.data.map
      (fun c => c.toNat ^ e % (p * q)))).data) =
      some (plaintext.data.map (fun c => c.toNat ^ e % (p * q))) := by
    rw [string_mk_data]
    exact jsonParse_dumps _
  -- per-character decryption recovers the original code points
  have hpow : (plaintext.data.map (fun c => c.toNat ^ e % (p * q))).map
      (fun c => c ^ d % (p * q)) = plaintext.data.map Char.toNat := by
    rw [List.map_map]
    apply List.map_congr_left
    intro c hc
    show (c.toNat ^ e % (p * q)) ^ d % (p * q) = c.toNat
    rw [← Nat.pow_mod]
    rw [← pow_mul]
    rw [rsa_pow_mod p q e d hp hq hpq hphi hmod.2 c.toNat]
    exact Nat.mod_eq_of_lt (hsmall c hc)
  simp only [RSAMessaging.decrypt_message, hct_encode, hdecode_b64, hutf8,
    hparse, hpow, mapM_charOfCode, Option.some_bind, Option.map_some',
    string_mk_data]

/-- Witness for C4: keypair `(101*103, 7)`, `(101*103, 8743)` and the
plaintext `"Hi"`. -/
theorem C4_witness :
    ∃ ct md, RSAMessaging.encrypt_message "Hi" (101 * 103, 7) = Except.ok (ct, md) ∧
      RSAMessaging.decrypt_message ct (101 * 103, 8743) = Except.ok "Hi" :=
  C4_rsa_roundtrip 101 103 7 8743 (by norm_num) (by norm_num) (by decide)
    (by decide) (by decide) (by decide) (by decide) (by decide)
    (by simp [mod_inverse, extended_gcd]) "Hi" (by decide)
